import Mathlib

/-!
Verification of the Engram memory store (`src/core.ts`, `src/io.ts`, `src/types.ts`).

Shallow embedding conventions:
* JavaScript numbers are modelled as rationals (`ℚ`); timestamps (`Date.now()`)
  are threaded as explicit `now` parameters.
* A JS `Map` is an insertion-ordered association list (`NodeMap`); `set` replaces
  the value of an existing key in place, otherwise appends.  A JS `Set` of ids is
  an insertion-ordered duplicate-free list.
* `undefined`/optional values are `Option`s.  JS string truthiness matters in the
  source (`if (!node.parentId)`): the empty string is falsy, so truthiness tests
  on `string | null` values are modelled by `isTruthyStr`, not by `Option.isSome`.
* External collaborators (the HNSW engine, `msgpackr`, Node's crypto) are not part
  of the repository; where an operation needs them they are modelled from the
  spec's description of the consumed interface (marked `Modelled from the spec:`).
-/

namespace Engram

/-! ## Data model (src/types.ts) -/

inductive ContentType where
  | text | image | audio | code | summary
deriving DecidableEq, Repr

inductive DecayTier where
  | hot | warm | cold | archive
deriving DecidableEq, Repr

inductive QualitySource where
  | direct | inferred | summarized
deriving DecidableEq, Repr

/-- `NodeContent.data : string | Uint8Array`. -/
inductive CData where
  | str (s : String)
  | bin (b : List Nat)
deriving DecidableEq, Repr

structure ExternalRef where
  rtype : String
  path : String
  hash : Option String
deriving DecidableEq, Repr

structure NodeContent where
  type : ContentType
  data : CData
  mimeType : Option String := none
  language : Option String := none
  tokens : Option ℚ := none
  originalLength : Option ℚ := none
  originalHash : Option String := none
  ref : Option ExternalRef := none
deriving DecidableEq, Repr

structure TemporalInfo where
  created : ℚ
  modified : ℚ
  accessed : ℚ
  expires : Option ℚ := none
  decayTier : DecayTier
deriving DecidableEq, Repr

structure QualityInfo where
  score : ℚ
  confidence : ℚ
  source : QualitySource
  verified : Option Bool := none
deriving DecidableEq, Repr

/-- `custom : Record<string, unknown>` is opaque to the core; modelled as an
association list of opaque string values. -/
structure NodeMetadata where
  sourceFile : Option String := none
  sourceLine : Option ℚ := none
  tags : Option (List String) := none
  custom : Option (List (String × String)) := none
deriving DecidableEq, Repr

structure MemoryNode where
  id : String
  parentId : Option String
  children : List String
  depth : ℚ
  path : String
  content : NodeContent
  embedding : Option (List ℚ) := none
  embeddingModel : Option String := none
  temporal : TemporalInfo
  quality : QualityInfo
  metadata : NodeMetadata
deriving DecidableEq, Repr

/-- `Partial<MemoryNode>`: every field optional.  (For fields that are already
optional on `MemoryNode`, `some v` means the caller supplied `v`.) -/
structure PartialNode where
  id : Option String := none
  parentId : Option (Option String) := none
  children : Option (List String) := none
  depth : Option ℚ := none
  path : Option String := none
  content : Option NodeContent := none
  embedding : Option (List ℚ) := none
  embeddingModel : Option String := none
  temporal : Option TemporalInfo := none
  quality : Option QualityInfo := none
  metadata : Option NodeMetadata := none
deriving DecidableEq, Repr

/-- Entities are opaque relationship records carried through unchanged. -/
structure Entity where
  id : String
  etype : String
  name : String
deriving DecidableEq, Repr

structure MemoryLink where
  id : String
  sourceId : String
  targetId : String
  ltype : String
  confidence : ℚ
  bidirectional : Bool
  created : ℚ
  createdBy : String
deriving DecidableEq, Repr

structure Delta where
  id : String
  timestamp : ℚ
  operation : String
  node : Option MemoryNode := none
  nodeId : Option String := none
  updates : Option PartialNode := none
  link : Option MemoryLink := none
deriving DecidableEq, Repr

/-! ## JS `Map`/`Set` model -/

abbrev NodeMap := List (String × MemoryNode)

/-- `Map.get`. -/
def mapGet (m : NodeMap) (k : String) : Option MemoryNode :=
  match m.find? (fun p => p.1 == k) with
  | some p => some p.2
  | none => none

/-- `Map.set`: replaces the value of an existing key in place, otherwise appends. -/
def mapSet : NodeMap → String → MemoryNode → NodeMap
  | [], k, v => [(k, v)]
  | p :: rest, k, v => if p.1 = k then (k, v) :: rest else p :: mapSet rest k v

/-- `Map.delete`. -/
def mapDelete (m : NodeMap) (k : String) : NodeMap :=
  m.filter (fun p => p.1 ≠ k)

def keysOf (m : NodeMap) : List String := m.map (·.1)

/-- `Set.add` for insertion-ordered id sets. -/
def setAdd (s : List String) (x : String) : List String :=
  if x ∈ s then s else s ++ [x]

/-- `Set.delete`. -/
def setDelete (s : List String) (x : String) : List String :=
  s.filter (· ≠ x)

/-- JS truthiness of a `string | null` value: `null` and `""` are falsy. -/
def isTruthyStr (o : Option String) : Bool :=
  !(o.getD "" == "")

/-! ### Map lemmas -/

theorem mapGet_eq_some_iff {m : NodeMap} {k : String} {v : MemoryNode}
    (hnd : (keysOf m).Nodup) : mapGet m k = some v ↔ (k, v) ∈ m := by
  induction m with
  | nil => simp [mapGet]
  | cons p rest ih =>
    simp only [keysOf, List.map_cons, List.nodup_cons] at hnd
    by_cases h : p.1 = k
    · subst h
      simp only [mapGet, List.find?_cons, beq_self_eq_true, List.mem_cons]
      constructor
      · intro h'
        left
        cases p
        simp_all
      · rintro (h' | h')
        · cases p; simp_all
        · exact absurd (by simpa [keysOf] using List.mem_map_of_mem Prod.fst h') hnd.1
    · have : (p.1 == k) = false := by simp [h]
      simp only [mapGet, List.find?_cons, this, List.mem_cons]
      rw [← mapGet]
      constructor
      · intro h'
        exact Or.inr ((ih hnd.2).mp h')
      · rintro (h' | h')
        · exact absurd (congrArg Prod.fst h'.symm) h
        · exact (ih hnd.2).mpr h'

theorem mapGet_mapSet_self (m : NodeMap) (k : String) (v : MemoryNode) :
    mapGet (mapSet m k v) k = some v := by
  induction m with
  | nil => simp [mapSet, mapGet]
  | cons p rest ih =>
    by_cases h : p.1 = k
    · simp [mapSet, h, mapGet]
    · have : (p.1 == k) = false := by simp [h]
      simp [mapSet, h, mapGet, List.find?_cons, this] at ih ⊢
      exact ih

theorem mapGet_mapSet_ne (m : NodeMap) {k k' : String} (v : MemoryNode)
    (h : k' ≠ k) : mapGet (mapSet m k v) k' = mapGet m k' := by
  induction m with
  | nil => simp [mapSet, mapGet, List.find?_cons, show (k == k') = false by simpa using fun e => h e.symm]
  | cons p rest ih =>
    by_cases hp : p.1 = k
    · subst hp
      simp [mapSet, mapGet, List.find?_cons,
        show (p.1 == k') = false by simpa using fun e => h e.symm]
    · simp only [mapSet, if_neg hp]
      by_cases hp' : p.1 = k'
      · simp [mapGet, List.find?_cons, hp']
      · have h1 : (p.1 == k') = false := by simp [hp']
        simp only [mapGet, List.find?_cons, h1] at ih ⊢
        exact ih

theorem mapGet_mapDelete_self (m : NodeMap) (k : String) :
    mapGet (mapDelete m k) k = none := by
  induction m with
  | nil => simp [mapDelete, mapGet]
  | cons p rest ih =>
    by_cases h : p.1 = k
    · simpa [mapDelete, h] using ih
    · simpa [mapDelete, mapGet, List.find?_cons, h, show (p.1 == k) = false by simp [h]]
        using ih

theorem mapGet_mapDelete_ne (m : NodeMap) {k k' : String} (h : k' ≠ k) :
    mapGet (mapDelete m k) k' = mapGet m k' := by
  induction m with
  | nil => simp [mapDelete, mapGet]
  | cons p rest ih =>
    by_cases hp : p.1 = k
    · subst hp
      simpa [mapDelete, mapGet, List.find?_cons, show (p.1 == k') = false by
        simpa using fun e => h e.symm] using ih
    · by_cases hp' : p.1 = k'
      · subst hp'
        simp [mapDelete, mapGet, List.find?_cons, h]
      · simpa [mapDelete, mapGet, List.find?_cons, hp, hp',
          show (p.1 == k') = false by simp [hp']] using ih

theorem keysOf_mapSet_of_mem {m : NodeMap} {k : String} (v : MemoryNode)
    (h : k ∈ keysOf m) : keysOf (mapSet m k v) = keysOf m := by
  induction m with
  | nil => simp [keysOf] at h
  | cons p rest ih =>
    simp only [keysOf, List.map_cons, List.mem_cons] at h
    by_cases hp : p.1 = k
    · simp [mapSet, hp, keysOf]
    · rcases h with h | h
      · exact absurd h.symm hp
      · have := ih (by simpa [keysOf] using h)
        simp only [keysOf] at this
        simp [mapSet, hp, keysOf, this]

theorem mapGet_isSome_iff_mem_keys {m : NodeMap} {k : String} :
    (mapGet m k).isSome ↔ k ∈ keysOf m := by
  induction m with
  | nil => simp [mapGet, keysOf]
  | cons p rest ih =>
    by_cases hp : p.1 = k
    · simp [mapGet, List.find?_cons, hp, keysOf]
    · simpa [mapGet, List.find?_cons, hp, show (p.1 == k) = false by simp [hp], keysOf,
        Ne.symm hp] using ih

/-! ## The memory tree (src/core.ts, `MemoryTree`)

The HNSW side-tables (`hnswIndex`, `idToLabel`, `labelToId`) belong to the
external approximate-search engine and are not part of the store state modelled
here; `removeFromHNSW`/`addToHNSW` calls do not affect the node map. -/

structure MemoryTree where
  nodes : NodeMap
  rootIds : List String
deriving DecidableEq, Repr

def MemoryTree.get (t : MemoryTree) (id : String) : Option MemoryNode :=
  mapGet t.nodes id

def MemoryTree.getAll (t : MemoryTree) : List MemoryNode :=
  t.nodes.map (·.2)

def MemoryTree.size (t : MemoryTree) : Nat :=
  t.nodes.length

/-- One step of `getDescendants`' breadth-first loop body: push each present
child onto the descendants accumulator and the queue. -/
def descStep (m : NodeMap) (p : List MemoryNode × List String) (childId : String) :
    List MemoryNode × List String :=
  match mapGet m childId with
  | some child => (p.1 ++ [child], p.2 ++ [childId])
  | none => p

/-- The `while (queue.length > 0)` loop of `MemoryTree.getDescendants`, with an
explicit fuel bound on the number of iterations.  On well-formed (acyclic)
stores the loop performs at most one iteration per node, so the fuel chosen in
`getDescendants` is never exhausted (proved below). -/
def getDescendantsAux (m : NodeMap) : Nat → List String → List MemoryNode → List MemoryNode
  | 0, _, acc => acc
  | _ + 1, [], acc => acc
  | fuel + 1, currentId :: rest, acc =>
    match mapGet m currentId with
    | none => getDescendantsAux m fuel rest acc
    | some node =>
      let p := node.children.foldl (descStep m) (acc, rest)
      getDescendantsAux m fuel p.2 p.1

def getDescendants (m : NodeMap) (id : String) : List MemoryNode :=
  getDescendantsAux m (m.length + 1) [id] []

def MemoryTree.getDescendants (t : MemoryTree) (id : String) : List MemoryNode :=
  Engram.getDescendants t.nodes id

/-- `MemoryTree.add`.  Returns the new store and the added id. -/
def MemoryTree.add (t : MemoryTree) (node : MemoryNode) : MemoryTree × String :=
  let m := mapSet t.nodes node.id node
  if !(isTruthyStr node.parentId) then
    ({ nodes := m, rootIds := setAdd t.rootIds node.id }, node.id)
  else
    match mapGet m (node.parentId.getD "") with
    | some parent =>
      if node.id ∈ parent.children then ({ nodes := m, rootIds := t.rootIds }, node.id)
      else
        ({ nodes := mapSet m (node.parentId.getD "")
             { parent with children := parent.children ++ [node.id] },
           rootIds := t.rootIds }, node.id)
    | none => ({ nodes := m, rootIds := t.rootIds }, node.id)

/-- `MemoryTree.update`.  The second component is the thrown error, if any. -/
def MemoryTree.update (t : MemoryTree) (id : String) (updates : PartialNode)
    (now : ℚ) : MemoryTree × Option String :=
  match mapGet t.nodes id with
  | none => (t, some ("Node " ++ id ++ " not found"))
  | some node =>
    let updated : MemoryNode :=
      { id := updates.id.getD node.id
        parentId := updates.parentId.getD node.parentId
        children := updates.children.getD node.children
        depth := updates.depth.getD node.depth
        path := updates.path.getD node.path
        content := updates.content.getD node.content
        embedding := (updates.embedding.map some).getD node.embedding
        embeddingModel := (updates.embeddingModel.map some).getD node.embeddingModel
        temporal := { updates.temporal.getD node.temporal with modified := now }
        quality := updates.quality.getD node.quality
        metadata := updates.metadata.getD node.metadata }
    ({ t with nodes := mapSet t.nodes id updated }, none)

/-- The body of the non-cascading reparenting loop in `MemoryTree.delete`:
point the child at the deleted node's parent and append it to the
grandparent's child list (or promote it to a root). -/
def reparentStep (node : MemoryNode) (tt : MemoryTree) (childId : String) : MemoryTree :=
  match mapGet tt.nodes childId with
  | none => tt
  | some child =>
    let mm := mapSet tt.nodes childId { child with parentId := node.parentId }
    if isTruthyStr node.parentId then
      match mapGet mm (node.parentId.getD "") with
      | some grandparent =>
        let gp2 := { grandparent with children := grandparent.children ++ [childId] }
        { tt with nodes := mapSet mm (node.parentId.getD "") gp2 }
      | none => { tt with nodes := mm }
    else
      { nodes := mm, rootIds := setAdd tt.rootIds childId }

/-- `MemoryTree.delete`.  The source returns silently when the id is absent
(`if (!node) return;`); the `Option String` error channel is kept so that the
absence of a thrown error is part of the model, and is always `none`. -/
def MemoryTree.delete (t : MemoryTree) (id : String) (cascade : Bool) :
    MemoryTree × Option String :=
  match mapGet t.nodes id with
  | none => (t, none)
  | some node =>
    let t1 :=
      if cascade then
        { t with nodes :=
            (Engram.getDescendants t.nodes id).foldl (fun mm d => mapDelete mm d.id) t.nodes }
      else
        node.children.foldl (reparentStep node) t
    let t2 :=
      if isTruthyStr node.parentId then
        match mapGet t1.nodes (node.parentId.getD "") with
        | some parent =>
          let p2 := { parent with children := parent.children.filter (· ≠ id) }
          { t1 with nodes := mapSet t1.nodes (node.parentId.getD "") p2 }
        | none => t1
      else
        { t1 with rootIds := setDelete t1.rootIds id }
    ({ t2 with nodes := mapDelete t2.nodes id }, none)

/-- `MemoryTree.updateDescendantPaths`, with an explicit fuel bound on the
recursion depth.  On well-formed (acyclic) stores the recursion depth is
bounded by the tree height, so the fuel passed by `move` is never exhausted. -/
def MemoryTree.updateDescendantPaths (m : NodeMap) : Nat → String → NodeMap
  | 0, _ => m
  | fuel + 1, id =>
    match mapGet m id with
    | none => m
    | some node =>
      node.children.foldl (fun mm childId =>
        match mapGet mm childId with
        | none => mm
        | some child =>
          MemoryTree.updateDescendantPaths
            (mapSet mm childId
              { child with depth := node.depth + 1, path := node.path ++ "/" ++ childId })
            fuel childId) m

/-- `MemoryTree.move`.  The second component is the thrown error, if any; note
that the removal from the old parent has already happened when the
new-parent-not-found error is thrown. -/
def MemoryTree.move (t : MemoryTree) (id : String) (newParentId : Option String) :
    MemoryTree × Option String :=
  match mapGet t.nodes id with
  | none => (t, some ("Node " ++ id ++ " not found"))
  | some node =>
    let t1 :=
      if isTruthyStr node.parentId then
        match mapGet t.nodes (node.parentId.getD "") with
        | some oldParent =>
          let op2 := { oldParent with children := oldParent.children.filter (· ≠ id) }
          { t with nodes := mapSet t.nodes (node.parentId.getD "") op2 }
        | none => t
      else
        { t with rootIds := setDelete t.rootIds id }
    if isTruthyStr newParentId then
      match mapGet t1.nodes (newParentId.getD "") with
      | none => (t1, some ("New parent " ++ newParentId.getD "" ++ " not found"))
      | some newParent =>
        let m2 := mapSet t1.nodes (newParentId.getD "")
          { newParent with children := newParent.children ++ [id] }
        let nodeCur := (mapGet m2 id).getD node
        let n2 := { nodeCur with
          parentId := newParentId
          depth := newParent.depth + 1
          path := newParent.path ++ "/" ++ id }
        let m3 := mapSet m2 id n2
        ({ t1 with nodes := MemoryTree.updateDescendantPaths m3 (2 * m3.length + 2) id }, none)
    else
      let nodeCur := (mapGet t1.nodes id).getD node
      let n2 := { nodeCur with
        parentId := none
        depth := (0 : ℚ)
        path := "/" ++ id }
      let m3 := mapSet t1.nodes id n2
      ({ nodes := MemoryTree.updateDescendantPaths m3 (2 * m3.length + 2) id,
         rootIds := setAdd t1.rootIds id }, none)

/-! ## Well-formedness and the hierarchy invariant

`WF` packages the structural consistency of a store that the source maintains
by construction (unique keys, `node.id` matching its key, parent/child links
mirroring each other, non-empty parent ids, root bookkeeping).  `Inv` is the
spec's hierarchy invariant on `depth` and `path`. -/

def WF (t : MemoryTree) : Prop :=
  (keysOf t.nodes).Nodup ∧
  (∀ p ∈ t.nodes, (p.2).id = p.1) ∧
  (∀ p ∈ t.nodes, (p.2).children.Nodup) ∧
  (∀ p ∈ t.nodes, ∀ c ∈ (p.2).children,
    ∃ q ∈ t.nodes, q.1 = c ∧ (q.2).parentId = some p.1) ∧
  (∀ p ∈ t.nodes, (p.2).parentId = none ∨
    ∃ q ∈ t.nodes, (p.2).parentId = some q.1 ∧ q.1 ≠ "" ∧ p.1 ∈ (q.2).children) ∧
  (∀ r ∈ t.rootIds, ∃ p ∈ t.nodes, p.1 = r ∧ (p.2).parentId = none) ∧
  (∀ p ∈ t.nodes, (p.2).parentId = none → p.1 ∈ t.rootIds) ∧
  t.rootIds.Nodup

/-- The hierarchy invariant (§3/§8 of the spec): roots have depth 0 and path
`"/" + id`; every other node's depth is its parent's depth plus one and its
path is the parent's path extended by `"/" + id`, with the parent present. -/
def Inv (t : MemoryTree) : Prop :=
  ∀ p ∈ t.nodes,
    ((p.2).parentId = none ∧ (p.2).depth = 0 ∧ (p.2).path = "/" ++ p.1) ∨
    (∃ q ∈ t.nodes, (p.2).parentId = some q.1 ∧ (p.2).depth = (q.2).depth + 1 ∧
      (p.2).path = (q.2).path ++ "/" ++ p.1)

theorem wf_get_id {t : MemoryTree} (hWF : WF t) {k : String} {v : MemoryNode}
    (h : mapGet t.nodes k = some v) : v.id = k := by
  exact hWF.2.1 (k, v) ((mapGet_eq_some_iff hWF.1).mp h)

theorem wf_children_nodup {t : MemoryTree} (hWF : WF t) {k : String} {v : MemoryNode}
    (h : mapGet t.nodes k = some v) : v.children.Nodup :=
  hWF.2.2.1 (k, v) ((mapGet_eq_some_iff hWF.1).mp h)

theorem wf_childParent {t : MemoryTree} (hWF : WF t) {a : String} {nd : MemoryNode}
    (h : mapGet t.nodes a = some nd) {c : String} (hc : c ∈ nd.children) :
    ∃ cn, mapGet t.nodes c = some cn ∧ cn.parentId = some a := by
  obtain ⟨q, hq, hq1, hq2⟩ := hWF.2.2.2.1 (a, nd) ((mapGet_eq_some_iff hWF.1).mp h) c hc
  refine ⟨q.2, (mapGet_eq_some_iff hWF.1).mpr ?_, by simpa using hq2⟩
  rw [← hq1]
  exact hq

theorem wf_parentChild {t : MemoryTree} (hWF : WF t) {a : String} {nd : MemoryNode}
    (h : mapGet t.nodes a = some nd) {p : String} (hp : nd.parentId = some p) :
    p ≠ "" ∧ ∃ pn, mapGet t.nodes p = some pn ∧ a ∈ pn.children := by
  rcases hWF.2.2.2.2.1 (a, nd) ((mapGet_eq_some_iff hWF.1).mp h) with h0 | ⟨q, hq, hq1, hq2, hq3⟩
  · simp [hp] at h0
  · rw [hp] at hq1
    obtain rfl : p = q.1 := by simpa using hq1
    exact ⟨hq2, q.2, (mapGet_eq_some_iff hWF.1).mpr (by simpa using hq), hq3⟩

theorem inv_get {t : MemoryTree} (hWF : WF t) (hInv : Inv t) {a : String} {nd : MemoryNode}
    (h : mapGet t.nodes a = some nd) :
    (nd.parentId = none ∧ nd.depth = 0 ∧ nd.path = "/" ++ a) ∨
    (∃ p pn, nd.parentId = some p ∧ mapGet t.nodes p = some pn ∧
      nd.depth = pn.depth + 1 ∧ nd.path = pn.path ++ "/" ++ a) := by
  rcases hInv (a, nd) ((mapGet_eq_some_iff hWF.1).mp h) with ⟨h1, h2, h3⟩ | ⟨q, hq, h1, h2, h3⟩
  · exact Or.inl ⟨h1, h2, h3⟩
  · exact Or.inr ⟨q.1, q.2, h1, (mapGet_eq_some_iff hWF.1).mpr (by simpa using hq), h2, h3⟩

/-- The depth of a child is its parent's depth plus one. -/
theorem depth_step {t : MemoryTree} (hWF : WF t) (hInv : Inv t)
    {a : String} {nd : MemoryNode} (h : mapGet t.nodes a = some nd)
    {c : String} (hc : c ∈ nd.children) {cn : MemoryNode}
    (hcn : mapGet t.nodes c = some cn) : cn.depth = nd.depth + 1 := by
  obtain ⟨cn', hcn', hpar⟩ := wf_childParent hWF h hc
  rw [hcn] at hcn'
  obtain rfl : cn = cn' := by simpa using hcn'
  rcases inv_get hWF hInv hcn with ⟨h1, _, _⟩ | ⟨p, pn, h1, h2, h3, _⟩
  · simp [hpar] at h1
  · rw [hpar] at h1
    obtain rfl : p = a := by simpa using h1.symm
    rw [h2] at h
    obtain rfl : pn = nd := by simpa using h
    exact h3

/-- One parent-to-child step through a `children` list, both endpoints present. -/
def ChildStep (m : NodeMap) (a c : String) : Prop :=
  ∃ nd, mapGet m a = some nd ∧ c ∈ nd.children ∧ (mapGet m c).isSome

/-- Transitive descendant relation through `children` lists. -/
inductive Desc (m : NodeMap) : String → String → Prop where
  | single {a c : String} : ChildStep m a c → Desc m a c
  | tail {a b c : String} : Desc m a b → ChildStep m b c → Desc m a c

theorem childStep_depth {t : MemoryTree} (hWF : WF t) (hInv : Inv t) {a c : String}
    (h : ChildStep t.nodes a c) :
    ∃ nda ndc, mapGet t.nodes a = some nda ∧ mapGet t.nodes c = some ndc ∧
      ndc.depth = nda.depth + 1 := by
  obtain ⟨nd, hget, hc, hcsome⟩ := h
  obtain ⟨cn, hcn⟩ := Option.isSome_iff_exists.mp hcsome
  exact ⟨nd, cn, hget, hcn, depth_step hWF hInv hget hc hcn⟩

theorem desc_depth {t : MemoryTree} (hWF : WF t) (hInv : Inv t) {a c : String}
    (h : Desc t.nodes a c) :
    ∃ nda ndc, mapGet t.nodes a = some nda ∧ mapGet t.nodes c = some ndc ∧
      nda.depth < ndc.depth := by
  induction h with
  | single hstep =>
    obtain ⟨nda, ndc, h1, h2, h3⟩ := childStep_depth hWF hInv hstep
    exact ⟨nda, ndc, h1, h2, by rw [h3]; linarith⟩
  | tail _ hstep ih =>
    obtain ⟨nda, ndb, h1, h2, h3⟩ := ih
    obtain ⟨ndb', ndc, h4, h5, h6⟩ := childStep_depth hWF hInv hstep
    rw [h2] at h4
    obtain rfl : ndb' = ndb := by simpa using h4.symm
    exact ⟨nda, ndc, h1, h5, by rw [h6]; linarith⟩

theorem desc_irrefl {t : MemoryTree} (hWF : WF t) (hInv : Inv t) {a : String}
    (h : Desc t.nodes a a) : False := by
  obtain ⟨nda, ndc, h1, h2, h3⟩ := desc_depth hWF hInv h
  rw [h1] at h2
  obtain rfl : nda = ndc := by simpa using h2
  exact lt_irrefl _ h3

/-- A node is never its own parent in a store satisfying the invariant. -/
theorem parent_ne_self {t : MemoryTree} (hWF : WF t) (hInv : Inv t) {a : String}
    {nd : MemoryNode} (h : mapGet t.nodes a = some nd) : nd.parentId ≠ some a := by
  intro hpar
  rcases inv_get hWF hInv h with ⟨h1, _, _⟩ | ⟨p, pn, h1, h2, h3, _⟩
  · simp [hpar] at h1
  · rw [hpar] at h1
    obtain rfl : p = a := by simpa using h1.symm
    rw [h2] at h
    obtain rfl : pn = nd := by simpa using h
    exact absurd h3 (by intro he; nlinarith [he])

instance (t : MemoryTree) : Decidable (WF t) := by unfold WF; infer_instance

/-! ## Search (src/core.ts) -/

structure SearchFilters where
  types : Option (List ContentType) := none
  tags : Option (List String) := none
  dateRange : Option (ℚ × ℚ) := none
  decayTiers : Option (List DecayTier) := none
  paths : Option (List String) := none
  entities : Option (List String) := none
deriving DecidableEq, Repr

structure SearchOptions where
  query : String
  topK : Option Nat := none
  minScore : Option ℚ := none
  filters : Option SearchFilters := none
  timeDecay : Option ℚ := none
  includeArchived : Option Bool := none
deriving DecidableEq, Repr

structure SearchResult where
  node : MemoryNode
  score : ℚ
deriving DecidableEq, Repr

def MS_PER_DAY : ℚ := 24 * 60 * 60 * 1000

/-- `cosineSimilarity`: dot product (the source assumes normalized vectors);
`none` models the thrown "Vectors must have same length". -/
def cosineSimilarity (a b : List ℚ) : Option ℚ :=
  if a.length = b.length then some ((a.zipWith (· * ·) b).sum) else none

/-- The filter block shared by both search loops, in source order. -/
def passesFilters (node : MemoryNode) (filters : Option SearchFilters) : Bool :=
  match filters with
  | none => true
  | some f =>
    (match f.types with | none => true | some ts => ts.contains node.content.type) &&
    (match f.tags with
     | none => true
     | some tags => tags.any (fun tg => (node.metadata.tags.getD []).contains tg)) &&
    (match f.decayTiers with | none => true | some ds => ds.contains node.temporal.decayTier) &&
    (match f.paths with | none => true | some ps => ps.any (fun p => node.path.startsWith p)) &&
    (match f.dateRange with
     | none => true
     | some r => !decide (node.temporal.created < r.1) && !decide (node.temporal.created > r.2))

/-- The scoring chain: optional temporal decay then the quality boost.
`mexp` models `Math.exp`, which is external to the embedding. -/
def finalScore (now : ℚ) (mexp : ℚ → ℚ) (timeDecay raw : ℚ) (node : MemoryNode) : ℚ :=
  let score := raw
  let score := if 0 < timeDecay then
      score * mexp (-timeDecay * ((now - node.temporal.accessed) / MS_PER_DAY))
    else score
  score * (1 / 2 + 1 / 2 * node.quality.score)

/-- The candidate loop of `searchNodesBruteForce` (the `results` array before
sorting).  An error is the exception thrown by `cosineSimilarity`. -/
def bruteCandidates (now : ℚ) (mexp : ℚ → ℚ) (minScore timeDecay : ℚ)
    (includeArchived : Bool) (filters : Option SearchFilters)
    (queryEmbedding : List ℚ) : List MemoryNode → Except String (List SearchResult)
  | [] => .ok []
  | node :: rest =>
    match node.embedding with
    | none => bruteCandidates now mexp minScore timeDecay includeArchived filters queryEmbedding rest
    | some emb =>
      if !passesFilters node filters then
        bruteCandidates now mexp minScore timeDecay includeArchived filters queryEmbedding rest
      else if !includeArchived && node.temporal.decayTier == .archive then
        bruteCandidates now mexp minScore timeDecay includeArchived filters queryEmbedding rest
      else
        match cosineSimilarity queryEmbedding emb with
        | none => .error "Vectors must have same length"
        | some raw =>
          let score := finalScore now mexp timeDecay raw node
          match bruteCandidates now mexp minScore timeDecay includeArchived filters queryEmbedding rest with
          | .error e => .error e
          | .ok tail => .ok (if minScore ≤ score then ⟨node, score⟩ :: tail else tail)

/-- Stable insertion of a result into a descending-sorted list: an element with
an equal score is placed after the existing ties. -/
def insertDesc (r : SearchResult) : List SearchResult → List SearchResult
  | [] => [r]
  | x :: xs => if r.score ≤ x.score then x :: insertDesc r xs else r :: x :: xs

/-- `results.sort((a, b) => b.score - a.score)`: JS `Array.prototype.sort` is
stable (ES2019), modelled as a stable insertion sort by descending score. -/
def stableSortDesc (l : List SearchResult) : List SearchResult :=
  l.foldl (fun acc r => insertDesc r acc) []

def searchNodesBruteForce (now : ℚ) (mexp : ℚ → ℚ) (tree : MemoryTree)
    (queryEmbedding : List ℚ) (options : SearchOptions) :
    Except String (List SearchResult) :=
  let topK := options.topK.getD 10
  let minScore := options.minScore.getD (1 / 2)
  let timeDecay := options.timeDecay.getD 0
  let includeArchived := options.includeArchived.getD false
  match bruteCandidates now mexp minScore timeDecay includeArchived options.filters
      queryEmbedding tree.getAll with
  | .error e => .error e
  | .ok results => .ok ((stableSortDesc results).take topK)

/-- The candidate loop of `searchNodesHNSW` over the `(nodeId, distance)` pairs
returned by the external engine; the raw similarity is `1 - distance`. -/
def hnswCandidates (now : ℚ) (mexp : ℚ → ℚ) (minScore timeDecay : ℚ)
    (includeArchived : Bool) (filters : Option SearchFilters) (tree : MemoryTree) :
    List (String × ℚ) → List SearchResult
  | [] => []
  | cand :: rest =>
    let tail := hnswCandidates now mexp minScore timeDecay includeArchived filters tree rest
    match mapGet tree.nodes cand.1 with
    | none => tail
    | some node =>
      match node.embedding with
      | none => tail
      | some _ =>
        if !passesFilters node filters then tail
        else if !includeArchived && node.temporal.decayTier == .archive then tail
        else
          let score := finalScore now mexp timeDecay (1 - cand.2) node
          if minScore ≤ score then ⟨node, score⟩ :: tail else tail

/-- `searchNodesHNSW`.  Modelled from the spec: the ANN engine's k-nearest
query (`tree.searchHNSW`) is an external capability, passed here as `searchKnn`;
the source calls it with `max(topK * 3, 100)` and post-processes its
`(nodeId, distance)` list. -/
def searchNodesHNSW (now : ℚ) (mexp : ℚ → ℚ) (searchKnn : Nat → List (String × ℚ))
    (tree : MemoryTree) (options : SearchOptions) : List SearchResult :=
  let topK := options.topK.getD 10
  let minScore := options.minScore.getD (1 / 2)
  let timeDecay := options.timeDecay.getD 0
  let includeArchived := options.includeArchived.getD false
  let searchK := max (topK * 3) 100
  let candidates := searchKnn searchK
  (stableSortDesc (hnswCandidates now mexp minScore timeDecay includeArchived
    options.filters tree candidates)).take topK

/-! ## Container codec (src/io.ts)

The payload region of a container is a list of symbolic payload bytes `PB`;
the whole buffer is a list of `B`.  External primitives are modelled from the
spec's description of the consumed interfaces:
* `msgpackr`'s `encode`/`decode` become injective blob constructors
  (`PB.pblob`, `B.hblob`);
* the SHA-256 integrity digest is idealized as an injective function of the
  payload bytes (`hashPayload`);
* PBKDF2 key derivation is idealized as an injective function of passphrase
  and salt (`deriveKey`);
* AES-256-GCM is an idealized authenticated cipher: decryption succeeds iff
  key and nonce match the ones used at encryption (`PB.cblob`). -/

structure PayloadData where
  nodes : List MemoryNode
  entities : List Entity
  links : List MemoryLink
  deltas : Option (List Delta)
deriving DecidableEq, Repr

inductive PB where
  | byte (n : Nat)
  | pblob (p : PayloadData)
  | cblob (p : PayloadData) (key : String × List Nat) (nonce : List Nat)
deriving DecidableEq, Repr

structure SecurityConfig where
  encrypted : Bool
  algorithm : String
  kdf : String
  salt : Option (List Nat) := none
  nonce : Option (List Nat) := none
  integrity : List PB
  signature : Option (List PB) := none
deriving DecidableEq, Repr

structure FileMetadata where
  source : String
  description : Option String := none
  tags : Option (List String) := none
  author : Option String := none
deriving DecidableEq, Repr

structure SchemaConfig where
  embeddingModel : String
  embeddingDims : ℚ
  chunkStrategy : String
  modalities : List String
deriving DecidableEq, Repr

structure FileStats where
  totalChunks : ℚ
  totalTokens : ℚ
  rootNodes : ℚ
  maxDepth : ℚ
  entityCount : ℚ
  linkCount : ℚ
deriving DecidableEq, Repr

structure EngramHeader where
  version : Nat × Nat
  created : ℚ
  modified : ℚ
  security : SecurityConfig
  metadata : FileMetadata
  schema : SchemaConfig
  stats : FileStats
deriving DecidableEq, Repr

/-- A buffer element: a plain byte, the header block emitted by `encode`, or a
payload byte. -/
inductive B where
  | byte (n : Nat)
  | hblob (h : EngramHeader)
  | pb (x : PB)
deriving DecidableEq, Repr

structure EngramFile where
  header : EngramHeader
  nodes : List MemoryNode
  entities : List Entity
  links : List MemoryLink
  deltas : Option (List Delta)
deriving DecidableEq, Repr

structure WriteOptions where
  encrypt : Option Bool := none
  password : Option String := none
  sign : Option Bool := none
  privateKey : Option (List Nat) := none
deriving DecidableEq, Repr

structure ReadOptions where
  password : Option String := none
  verifyIntegrity : Option Bool := none
deriving DecidableEq, Repr

/-- The 6 magic bytes `"ENGRAM"`. -/
def MAGIC : List B := [.byte 69, .byte 78, .byte 71, .byte 82, .byte 65, .byte 77]

def VERSION_MAJOR : Nat := 1
def VERSION_MINOR : Nat := 0

/-- Modelled from the spec: `msgpackr.encode` of the payload record. -/
def encodePayload (p : PayloadData) : List PB := [PB.pblob p]

/-- Modelled from the spec: `msgpackr.decode` of payload bytes. -/
def decodePayload : List PB → Option PayloadData
  | [PB.pblob p] => some p
  | _ => none

/-- Modelled from the spec: `msgpackr.encode` of the header. -/
def encodeHeader (h : EngramHeader) : List B := [B.hblob h]

/-- Modelled from the spec: `msgpackr.decode` of the header block. -/
def decodeHeader : List B → Option EngramHeader
  | [B.hblob h] => some h
  | _ => none

/-- Modelled from the spec: the SHA-256 content digest, idealized as an
injective (collision-free) function of the payload bytes. -/
def hashPayload (payload : List PB) : List PB := payload

/-- Modelled from the spec: PBKDF2 key derivation, idealized as an injective
function of passphrase and salt. -/
def deriveKey (password : String) (salt : List Nat) : String × List Nat :=
  (password, salt)

/-- Modelled from the spec: AES-256-GCM encryption with appended auth tag.  The
writer only ever encrypts a freshly encoded payload, so only the first case is
exercised. -/
def encryptPayload : List PB → String → List Nat → List Nat → List PB
  | [PB.pblob p], password, salt, nonce => [PB.cblob p (deriveKey password salt) nonce]
  | _, _, _, _ => []

/-- Modelled from the spec: AES-256-GCM decryption; the auth-tag check succeeds
iff the derived key and the nonce match the ones used at encryption. -/
def decryptPayload (ciphertext : List PB) (password : String) (salt nonce : List Nat) :
    Except String (List PB) :=
  match ciphertext with
  | [PB.cblob p key nonce'] =>
    if key = deriveKey password salt ∧ nonce' = nonce then Except.ok [PB.pblob p]
    else .error "Unsupported state or unable to authenticate data"
  | _ => .error "Unsupported state or unable to authenticate data"

def byteAt (data : List B) (i : Nat) : Nat :=
  match data.getD i (B.byte 0) with
  | B.byte n => n
  | _ => 0

def writeUInt32LE (n : Nat) : List B :=
  [B.byte (n % 256), B.byte (n / 256 % 256), B.byte (n / 65536 % 256),
   B.byte (n / 16777216 % 256)]

def readUInt32LE (data : List B) (off : Nat) : Nat :=
  byteAt data off + 256 * byteAt data (off + 1) + 65536 * byteAt data (off + 2) +
    16777216 * byteAt data (off + 3)

/-- View a buffer element as a payload byte (header blobs never occur in the
payload region of a well-formed buffer). -/
def pbOfB : B → PB
  | .byte n => .byte n
  | .pb x => x
  | .hblob _ => .byte 0

/-- `writeEngram`.  `Date.now()` and the random salt/nonce are external inputs,
threaded as parameters. -/
def writeEngram (now : ℚ) (salt nonce : List Nat) (file : EngramFile)
    (options : WriteOptions) : List B :=
  let payload := encodePayload
    { nodes := file.nodes, entities := file.entities, links := file.links,
      deltas := file.deltas }
  let pr : List PB × SecurityConfig :=
    if (options.encrypt.getD false) && isTruthyStr options.password then
      let ciphertext := encryptPayload payload (options.password.getD "") salt nonce
      (ciphertext,
        { encrypted := true, algorithm := "aes-256-gcm", kdf := "argon2id",
          salt := some salt, nonce := some nonce, integrity := hashPayload ciphertext })
    else
      (payload,
        { encrypted := false, algorithm := "none", kdf := "none",
          integrity := hashPayload payload })
  let header : EngramHeader := { file.header with security := pr.2, modified := now }
  let headerBytes := encodeHeader header
  MAGIC ++ [B.byte VERSION_MAJOR, B.byte VERSION_MINOR] ++
    writeUInt32LE headerBytes.length ++ headerBytes ++ pr.1.map B.pb

/-- The part of `readEngram` after the frame has been parsed: integrity check,
optional decryption, payload decode. -/
def readEngramBody (header : EngramHeader) (payloadBytes : List PB)
    (options : ReadOptions) : Except String EngramFile :=
  if options.verifyIntegrity ≠ some false ∧
      header.security.integrity ≠ hashPayload payloadBytes then
    .error "Integrity check failed: file may be corrupted or tampered"
  else
    let decrypted : Except String (List PB) :=
      if header.security.encrypted then
        if !isTruthyStr options.password then
          .error "File is encrypted. Provide a password."
        else
          decryptPayload payloadBytes (options.password.getD "")
            (header.security.salt.getD []) (header.security.nonce.getD [])
      else .ok payloadBytes
    match decrypted with
    | .error e => .error e
    | .ok plain =>
      match decodePayload plain with
      | none => .error "failed to decode payload"
      | some payload =>
        .ok { header := header, nodes := payload.nodes,
              entities := payload.entities, links := payload.links,
              deltas := payload.deltas }

/-- `readEngram`. -/
def readEngram (data : List B) (options : ReadOptions) : Except String EngramFile :=
  if data.take 6 ≠ MAGIC then .error "Invalid Engram file: bad magic bytes"
  else
    let majorVersion := byteAt data 6
    let minorVersion := byteAt data 7
    if majorVersion ≠ VERSION_MAJOR then
      if majorVersion = 2 then .error "This is a v2 file. Use migrateV2toEngram() first."
      else .error ("Unsupported version: " ++ toString majorVersion ++ "." ++
        toString minorVersion)
    else
      let headerLen := readUInt32LE data 8
      let headerBytes := (data.drop 12).take headerLen
      match decodeHeader headerBytes with
      | none => .error "failed to decode header"
      | some header =>
        readEngramBody header ((data.drop (12 + headerLen)).map pbOfB) options

/-! ## Concrete fixtures used by witnesses and counterexamples -/

def sampleContent : NodeContent := { type := .text, data := .str "x" }

def sampleTemporal : TemporalInfo :=
  { created := 0, modified := 0, accessed := 0, decayTier := .hot }

def sampleQuality : QualityInfo := { score := 0, confidence := 1, source := .direct }

def baseNode (id : String) (parentId : Option String) (children : List String)
    (depth : ℚ) (path : String) : MemoryNode :=
  { id := id, parentId := parentId, children := children, depth := depth, path := path,
    content := sampleContent, temporal := sampleTemporal, quality := sampleQuality,
    metadata := {} }

def nodeR : MemoryNode := baseNode "r" none ["a"] 0 "/r"
def nodeA : MemoryNode := baseNode "a" (some "r") ["b"] 1 "/r/a"
def nodeB : MemoryNode := baseNode "b" (some "a") [] 2 "/r/a/b"

/-- A well-formed three-node chain `r → a → b`. -/
def chainTree : MemoryTree :=
  { nodes := [("r", nodeR), ("a", nodeA), ("b", nodeB)], rootIds := ["r"] }

theorem inv_chainTree : Inv chainTree := by
  intro p hp
  simp only [chainTree, List.mem_cons, List.not_mem_nil, or_false] at hp
  rcases hp with h | h | h <;>
    (subst h; simp [nodeR, nodeA, nodeB, baseNode, chainTree]; try norm_num)

/-! ## Claim C4: operations on a non-existent id -/

/-- C4 (amended): for an id absent from the store, `update` and `move` fail with
the NotFound error and leave the store unchanged, while `delete` returns
silently with the store unchanged and raises no error at all. -/
theorem missing_id_operations (t : MemoryTree) (id : String)
    (h : mapGet t.nodes id = none) (u : PartialNode) (now : ℚ)
    (np : Option String) (c : Bool) :
    MemoryTree.update t id u now = (t, some ("Node " ++ id ++ " not found")) ∧
    MemoryTree.move t id np = (t, some ("Node " ++ id ++ " not found")) ∧
    MemoryTree.delete t id c = (t, none) := by
  refine ⟨?_, ?_, ?_⟩ <;> simp [MemoryTree.update, MemoryTree.move, MemoryTree.delete, h]

/-- C4 (counterexample to the claim as stated): deleting a non-existent id does
not fail with NotFound — it raises no error. -/
theorem delete_missing_id_silent :
    MemoryTree.delete chainTree "zzz" false = (chainTree, none) := by decide

/-- Witness for `missing_id_operations` at a concrete store and id. -/
theorem missing_id_operations_witness :
    mapGet chainTree.nodes "zzz" = none ∧
    (MemoryTree.update chainTree "zzz" {} 0 =
        (chainTree, some ("Node " ++ "zzz" ++ " not found")) ∧
      MemoryTree.move chainTree "zzz" none =
        (chainTree, some ("Node " ++ "zzz" ++ " not found")) ∧
      MemoryTree.delete chainTree "zzz" true = (chainTree, none)) :=
  ⟨by decide, missing_id_operations chainTree "zzz" (by decide) {} 0 none true⟩

/-! ## Claim C8: `add` with an absent declared parent -/

/-- C8 (amended): if the declared parent id is a non-empty string, different
from the node's own id and absent from the store, `add` succeeds, inserts the
node with its `parentId` field unchanged, creates no parent child-list entry
and does not register the node as a root.  (With an empty-string `parentId`
the node is instead registered as a root, and with `parentId` equal to the
node's own id the node is appended to its own child list — see the
counterexample.) -/
theorem add_absent_parent_link_omitted (t : MemoryTree) (node : MemoryNode)
    (p : String) (hp : node.parentId = some p) (hne : p ≠ "") (hself : p ≠ node.id)
    (habs : mapGet t.nodes p = none) :
    MemoryTree.add t node =
      ({ nodes := mapSet t.nodes node.id node, rootIds := t.rootIds }, node.id) := by
  have htr : isTruthyStr (some p) = true := by simp [isTruthyStr, hne]
  have habs' : mapGet (mapSet t.nodes node.id node) p = none := by
    rw [mapGet_mapSet_ne t.nodes node hself]; exact habs
  simp [MemoryTree.add, hp, htr, habs']

/-- C8 (counterexample to the claim as stated): a node whose declared
`parentId` is the empty string — a parent id that is not present in the store —
is registered as a root, because `!node.parentId` is true for `""` in JS. -/
theorem add_empty_string_parent_becomes_root :
    mapGet (MemoryTree.mk [] []).nodes "" = none ∧
    (baseNode "a" (some "") [] 0 "/a").parentId = some "" ∧
    "a" ∈ ((MemoryTree.add ⟨[], []⟩ (baseNode "a" (some "") [] 0 "/a")).1).rootIds := by
  decide

/-- Witness for `add_absent_parent_link_omitted` at a concrete store. -/
theorem add_absent_parent_link_omitted_witness :
    (baseNode "x" (some "q") [] 0 "/x").parentId = some "q" ∧
    mapGet chainTree.nodes "q" = none ∧
    MemoryTree.add chainTree (baseNode "x" (some "q") [] 0 "/x") =
      ({ nodes := mapSet chainTree.nodes (baseNode "x" (some "q") [] 0 "/x").id
           (baseNode "x" (some "q") [] 0 "/x"),
         rootIds := chainTree.rootIds }, (baseNode "x" (some "q") [] 0 "/x").id) :=
  ⟨by decide, by decide,
    add_absent_parent_link_omitted chainTree (baseNode "x" (some "q") [] 0 "/x") "q"
      (by decide) (by decide) (by decide) (by decide)⟩

/-! ## Claim C9: `update` always refreshes the modified timestamp -/

/-- C9: `update` on a present node merges the partial fields and always sets
`temporal.modified` to the current time — also when the caller supplied a
`temporal` record with its own `modified` value — while every field not named
in the partial update keeps its previous value. -/
theorem update_stamps_modified (t : MemoryTree) (id : String) (u : PartialNode)
    (now : ℚ) (node : MemoryNode) (h : mapGet t.nodes id = some node) :
    ∃ merged, MemoryTree.update t id u now =
        ({ t with nodes := mapSet t.nodes id merged }, none) ∧
      merged.temporal.modified = now ∧
      (∀ ti, u.temporal = some ti → merged.temporal = { ti with modified := now }) ∧
      (u.temporal = none → merged.temporal = { node.temporal with modified := now }) ∧
      (u.id = none → merged.id = node.id) ∧
      (u.parentId = none → merged.parentId = node.parentId) ∧
      (u.children = none → merged.children = node.children) ∧
      (u.depth = none → merged.depth = node.depth) ∧
      (u.path = none → merged.path = node.path) ∧
      (u.content = none → merged.content = node.content) ∧
      (u.embedding = none → merged.embedding = node.embedding) ∧
      (u.embeddingModel = none → merged.embeddingModel = node.embeddingModel) ∧
      (u.quality = none → merged.quality = node.quality) ∧
      (u.metadata = none → merged.metadata = node.metadata) := by
  let merged : MemoryNode := {
    id := u.id.getD node.id
    parentId := u.parentId.getD node.parentId
    children := u.children.getD node.children
    depth := u.depth.getD node.depth
    path := u.path.getD node.path
    content := u.content.getD node.content
    embedding := (u.embedding.map some).getD node.embedding
    embeddingModel := (u.embeddingModel.map some).getD node.embeddingModel
    temporal := { u.temporal.getD node.temporal with modified := now }
    quality := u.quality.getD node.quality
    metadata := u.metadata.getD node.metadata }
  refine ⟨merged, ?_, ?_, ?_, ?_, ?_, ?_, ?_, ?_, ?_, ?_, ?_, ?_, ?_, ?_⟩
  · simp only [MemoryTree.update, h]
  · simp
  · intro ti hti; simp [hti]
  · intro hti; simp [hti]
  · intro h'; simp [h']
  · intro h'; simp [h']
  · intro h'; simp [h']
  · intro h'; simp [h']
  · intro h'; simp [h']
  · intro h'; simp [h']
  · intro h'; simp [h']
  · intro h'; simp [h']
  · intro h'; simp [h']
  · intro h'; simp [h']

/-- A partial update whose caller-supplied `temporal.modified` is `999`. -/
def sampleUpdate : PartialNode :=
  { temporal := some { created := 0, modified := 999, accessed := 0, decayTier := .hot } }

/-- Witness for `update_stamps_modified`: the caller supplies
`temporal.modified = 999`, yet the stored value is the current time `5`. -/
theorem update_stamps_modified_witness :
    mapGet chainTree.nodes "a" = some nodeA ∧
    ∃ merged, MemoryTree.update chainTree "a" sampleUpdate 5 =
        ({ chainTree with nodes := mapSet chainTree.nodes "a" merged }, none) ∧
      merged.temporal.modified = 5 ∧
      (∀ ti, sampleUpdate.temporal = some ti → merged.temporal = { ti with modified := 5 }) ∧
      (sampleUpdate.temporal = none → merged.temporal = { nodeA.temporal with modified := 5 }) ∧
      (sampleUpdate.id = none → merged.id = nodeA.id) ∧
      (sampleUpdate.parentId = none → merged.parentId = nodeA.parentId) ∧
      (sampleUpdate.children = none → merged.children = nodeA.children) ∧
      (sampleUpdate.depth = none → merged.depth = nodeA.depth) ∧
      (sampleUpdate.path = none → merged.path = nodeA.path) ∧
      (sampleUpdate.content = none → merged.content = nodeA.content) ∧
      (sampleUpdate.embedding = none → merged.embedding = nodeA.embedding) ∧
      (sampleUpdate.embeddingModel = none → merged.embeddingModel = nodeA.embeddingModel) ∧
      (sampleUpdate.quality = none → merged.quality = nodeA.quality) ∧
      (sampleUpdate.metadata = none → merged.metadata = nodeA.metadata) :=
  ⟨by decide, update_stamps_modified chainTree "a" sampleUpdate 5 nodeA (by decide)⟩

/-! ## Claim C1: `move` to a non-existent new parent -/

/-- C1 (amended): moving a present node to a new parent id that is a non-empty
string not present in the store fails with the NotFound error, and the moved
node's own record (parent link, depth, path) is untouched — but the store is
*not* exactly as before: the node has already been removed from its old
parent's child list (or from the root set) when the error is thrown.  (With
`newParentId = ""` — also an id absent from the store — no error is raised at
all: JS truthiness treats `""` like `null`, so the node is promoted to a root
instead; see the counterexample.) -/
theorem move_missing_new_parent (t : MemoryTree) (hWF : WF t) (hInv : Inv t)
    (id p : String) (node : MemoryNode) (h : mapGet t.nodes id = some node)
    (habs : mapGet t.nodes p = none) (hpe : p ≠ "") :
    ∃ t1, MemoryTree.move t id (some p) =
        (t1, some ("New parent " ++ p ++ " not found")) ∧
      mapGet t1.nodes id = some node ∧
      (node.parentId = none →
        t1.nodes = t.nodes ∧ t1.rootIds = setDelete t.rootIds id) ∧
      (∀ g, node.parentId = some g →
        t1.rootIds = t.rootIds ∧
        ∃ gp, mapGet t.nodes g = some gp ∧
          t1.nodes = mapSet t.nodes g
            ({ gp with children := gp.children.filter (· ≠ id) })) := by
  have htrp : isTruthyStr (some p) = true := by simp [isTruthyStr, hpe]
  cases hpar : node.parentId with
  | none =>
    refine ⟨{ t with rootIds := setDelete t.rootIds id }, ?_, h, fun _ => ⟨rfl, rfl⟩, ?_⟩
    · simp [MemoryTree.move, h, hpar, isTruthyStr, htrp, habs, hpe]
    · intro g hg; simp at hg
  | some g =>
    obtain ⟨hge, gp, hgp, _⟩ := wf_parentChild hWF h hpar
    have htrg : isTruthyStr (some g) = true := by simp [isTruthyStr, hge]
    have hgid : g ≠ id := by
      intro he; subst he
      exact parent_ne_self hWF hInv h hpar
    have hpg : p ≠ g := by
      intro he; subst he
      rw [habs] at hgp; cases hgp
    refine ⟨⟨mapSet t.nodes g ({ gp with children := gp.children.filter (· ≠ id) }),
      t.rootIds⟩, ?_, ?_, ?_, ?_⟩
    · have habs1 : mapGet (mapSet t.nodes g
          ({ gp with children := gp.children.filter (· ≠ id) })) p = none := by
        rw [mapGet_mapSet_ne _ _ hpg]; exact habs
      simp only [ne_eq, decide_not] at habs1
      simp [MemoryTree.move, h, hpar, htrg, htrp, hgp, habs1]
    · show mapGet (mapSet t.nodes g _) id = some node
      rw [mapGet_mapSet_ne _ _ (Ne.symm hgid)]; exact h
    · intro h0; simp at h0
    · intro g' hg'
      obtain rfl : g = g' := by simpa using hg'
      exact ⟨rfl, gp, hgp, rfl⟩

/-- C1 (counterexample to the claim as stated): after `move("a", "zzz")` fails
with NotFound, the store differs from its pre-call state (node `a` is gone from
`r`'s child list); and `move("a", "")` — `""` being likewise an id not present
in the store — raises no NotFound at all: the falsy `""` takes the
promote-to-root branch, so `a` ends up a root with no parent, depth `0` and
path `"/a"`. -/
theorem move_missing_new_parent_cex :
    ((MemoryTree.move chainTree "a" (some "zzz")).1 ≠ chainTree) ∧
    ((MemoryTree.move chainTree "a" (some "zzz")).2).isSome ∧
    mapGet chainTree.nodes "" = none ∧
    (MemoryTree.move chainTree "a" (some "")).2 = none ∧
    mapGet (MemoryTree.move chainTree "a" (some "")).1.nodes "a" =
      some { nodeA with parentId := none, depth := 0, path := "/a" } ∧
    "a" ∈ (MemoryTree.move chainTree "a" (some "")).1.rootIds := by decide

/-- Witness for `move_missing_new_parent` on the concrete chain store. -/
theorem move_missing_new_parent_witness :
    mapGet chainTree.nodes "a" = some nodeA ∧
    mapGet chainTree.nodes "zzz" = none ∧
    ∃ t1, MemoryTree.move chainTree "a" (some "zzz") =
        (t1, some ("New parent " ++ "zzz" ++ " not found")) ∧
      mapGet t1.nodes "a" = some nodeA ∧
      (nodeA.parentId = none →
        t1.nodes = chainTree.nodes ∧ t1.rootIds = setDelete chainTree.rootIds "a") ∧
      (∀ g, nodeA.parentId = some g →
        t1.rootIds = chainTree.rootIds ∧
        ∃ gp, mapGet chainTree.nodes g = some gp ∧
          t1.nodes = mapSet chainTree.nodes g
            ({ gp with children := gp.children.filter (· ≠ "a") })) :=
  ⟨by decide, by decide,
    move_missing_new_parent chainTree (by decide) inv_chainTree "a" "zzz" nodeA
      (by decide) (by decide) (by decide)⟩

/-! ## Claim C2: the hierarchy invariant is broken by non-cascading delete -/

/-- C2 (code-bug evidence): on the well-formed chain `r → a → b`,
`delete("a", cascade := false)` reparents `b` to `r` but leaves `b`'s stale
depth `2` and path `"/r/a/b"`, so the resulting store violates the hierarchy
invariant that the spec states for all nodes. -/
theorem delete_reparent_breaks_invariant :
    WF chainTree ∧ Inv chainTree ∧
    mapGet ((MemoryTree.delete chainTree "a" false).1).nodes "b" =
      some { nodeB with parentId := some "r" } ∧
    mapGet ((MemoryTree.delete chainTree "a" false).1).nodes "r" =
      some { nodeR with children := ["b"] } ∧
    ¬ Inv (MemoryTree.delete chainTree "a" false).1 := by
  refine ⟨by decide, inv_chainTree, by decide, by decide, ?_⟩
  intro hInv
  have hmem : ("b", { nodeB with parentId := some "r" }) ∈
      ((MemoryTree.delete chainTree "a" false).1).nodes := by decide
  have h2 := hInv _ hmem
  rcases h2 with ⟨h1, _⟩ | ⟨q, hq, h1, hdep, _⟩
  · simp at h1
  · have hq' : q = ("r", { nodeR with children := ["b"] }) ∨
        q = ("b", { nodeB with parentId := some "r" }) := by
      have : ((MemoryTree.delete chainTree "a" false).1).nodes =
          [("r", { nodeR with children := ["b"] }),
           ("b", { nodeB with parentId := some "r" })] := by decide
      rw [this] at hq
      simpa using hq
    rcases hq' with rfl | rfl
    · simp only [nodeB, nodeR, baseNode] at hdep
      norm_num at hdep
    · simp [nodeB, baseNode] at h1

/-! ## Container frame lemmas -/

theorem map_pbOfB_map_pb (l : List PB) : (l.map B.pb).map pbOfB = l := by
  induction l with
  | nil => rfl
  | cons x xs ih => simp [pbOfB, ih]

/-- The frame produced by `writeEngram`: marker, versions, little-endian header
length, one header blob, then the payload region. -/
def frameOf (hd : EngramHeader) (rest : List B) : List B :=
  MAGIC ++ [B.byte VERSION_MAJOR, B.byte VERSION_MINOR] ++ writeUInt32LE 1 ++
    [B.hblob hd] ++ rest

theorem readEngram_frame (hd : EngramHeader) (rest : List B) (opts : ReadOptions) :
    readEngram (frameOf hd rest) opts = readEngramBody hd (rest.map pbOfB) opts := by
  rfl

theorem frameOf_take_13 (hd : EngramHeader) (rest : List B) :
    (frameOf hd rest).take 13 = frameOf hd [] := by
  simp [frameOf, MAGIC, writeUInt32LE]

theorem frameOf_drop_13 (hd : EngramHeader) (rest : List B) :
    (frameOf hd rest).drop 13 = rest := by
  simp [frameOf, MAGIC, writeUInt32LE]

theorem frameOf_append (hd : EngramHeader) (rest rest' : List B) :
    frameOf hd rest ++ rest' = frameOf hd (rest ++ rest') := by
  simp [frameOf]

/-- `writeEngram` always produces a well-formed frame: the written header
carries the freshly computed security descriptor and `modified := now`, and the
payload region is the (possibly encrypted) encoded payload. -/
theorem writeEngram_shape (now : ℚ) (salt nonce : List Nat) (file : EngramFile)
    (options : WriteOptions) :
    ∃ fp : List PB,
      writeEngram now salt nonce file options =
        frameOf { file.header with
          security := (if (options.encrypt.getD false) && isTruthyStr options.password then
            ({ encrypted := true, algorithm := "aes-256-gcm", kdf := "argon2id",
               salt := some salt, nonce := some nonce, integrity := hashPayload fp })
          else
            ({ encrypted := false, algorithm := "none", kdf := "none",
               integrity := hashPayload fp }))
          modified := now } (fp.map B.pb) ∧
      fp = (if (options.encrypt.getD false) && isTruthyStr options.password then
        encryptPayload (encodePayload
          { nodes := file.nodes, entities := file.entities, links := file.links,
            deltas := file.deltas }) (options.password.getD "") salt nonce
      else encodePayload
        { nodes := file.nodes, entities := file.entities, links := file.links,
          deltas := file.deltas }) := by
  cases henc : (options.encrypt.getD false) && isTruthyStr options.password with
  | false =>
    refine ⟨_, ?_, rfl⟩
    simp only [writeEngram, henc, if_false, Bool.false_eq_true, frameOf]
    rfl
  | true =>
    refine ⟨_, ?_, rfl⟩
    simp only [writeEngram, henc, if_true, frameOf]
    rfl

theorem readEngramBody_plain (hd : EngramHeader) (p : PayloadData) (opts : ReadOptions)
    (hencr : hd.security.encrypted = false)
    (hint : hd.security.integrity = hashPayload (encodePayload p)) :
    readEngramBody hd (encodePayload p) opts =
      .ok { header := hd, nodes := p.nodes, entities := p.entities, links := p.links,
            deltas := p.deltas } := by
  simp [readEngramBody, hashPayload, encodePayload, decodePayload, hint, hencr]

theorem readEngramBody_enc (hd : EngramHeader) (p : PayloadData) (password : String)
    (salt nonce : List Nat) (opts : ReadOptions)
    (hencr : hd.security.encrypted = true)
    (hint : hd.security.integrity =
      hashPayload (encryptPayload (encodePayload p) password salt nonce))
    (hsalt : hd.security.salt = some salt) (hnonce : hd.security.nonce = some nonce)
    (hp1 : isTruthyStr opts.password = true) (hp2 : opts.password.getD "" = password) :
    readEngramBody hd (encryptPayload (encodePayload p) password salt nonce) opts =
      .ok { header := hd, nodes := p.nodes, entities := p.entities, links := p.links,
            deltas := p.deltas } := by
  simp [readEngramBody, hashPayload, encodePayload, encryptPayload, decryptPayload,
    decodePayload, hint, hencr, hsalt, hnonce, hp1, hp2, deriveKey]

/-! ## Claim C5: write/read round trip -/

/-- C5: reading back a written container with the same settings (same passphrase
when encryption is used) reproduces the nodes, entities, links and deltas
exactly; the returned header carries the caller's version/created/metadata/
schema/stats, but its `modified` timestamp is the write time and its integrity
digest is the digest of the payload bytes as stored — and the written bytes do
not depend at all on the `modified` and `security` values the caller supplied
in the input header. -/
theorem write_read_roundtrip (now : ℚ) (salt nonce : List Nat) (file : EngramFile)
    (options : WriteOptions) :
    (∃ out, readEngram (writeEngram now salt nonce file options)
        { password := options.password, verifyIntegrity := none } = .ok out ∧
      out.nodes = file.nodes ∧ out.entities = file.entities ∧
      out.links = file.links ∧ out.deltas = file.deltas ∧
      out.header.modified = now ∧ out.header.created = file.header.created ∧
      out.header.version = file.header.version ∧
      out.header.metadata = file.header.metadata ∧
      out.header.schema = file.header.schema ∧
      out.header.stats = file.header.stats ∧
      out.header.security.integrity =
        hashPayload (((writeEngram now salt nonce file options).drop 13).map pbOfB)) ∧
    ∀ m' s', writeEngram now salt nonce
        { file with header := { file.header with modified := m', security := s' } }
        options =
      writeEngram now salt nonce file options := by
  obtain ⟨fp, hw, hfp⟩ := writeEngram_shape now salt nonce file options
  constructor
  · rw [hw, readEngram_frame, frameOf_drop_13, map_pbOfB_map_pb]
    cases henc : (options.encrypt.getD false) && isTruthyStr options.password with
    | false =>
      simp only [henc, Bool.false_eq_true, if_false] at hfp ⊢
      subst hfp
      exact ⟨_, readEngramBody_plain _ _ _ rfl rfl,
        rfl, rfl, rfl, rfl, rfl, rfl, rfl, rfl, rfl, rfl, rfl⟩
    | true =>
      have hpw : isTruthyStr options.password = true := by
        have := henc
        simp only [Bool.and_eq_true] at this
        exact this.2
      simp only [henc, if_true] at hfp ⊢
      subst hfp
      exact ⟨_, readEngramBody_enc _ _ (options.password.getD "") salt nonce _
          rfl rfl rfl rfl hpw rfl,
        rfl, rfl, rfl, rfl, rfl, rfl, rfl, rfl, rfl, rfl, rfl⟩
  · intro m' s'
    rfl

/-! ## Claim C6: integrity is checked against the stored payload bytes before
decryption -/

/-- The payload record `writeEngram` encodes. -/
def filePayload (file : EngramFile) : PayloadData :=
  { nodes := file.nodes, entities := file.entities, links := file.links, deltas := file.deltas }

/-- The security descriptor written for an unencrypted container. -/
def plainSecurityOf (p : PayloadData) : SecurityConfig :=
  { encrypted := false, algorithm := "none", kdf := "none",
    integrity := hashPayload (encodePayload p) }

/-- The header as written for an unencrypted container. -/
def writtenPlainHeader (now : ℚ) (file : EngramFile) : EngramHeader :=
  { file.header with security := plainSecurityOf (filePayload file), modified := now }

/-- C6: if the payload region of a written container is replaced by any other
byte sequence, reading with integrity verification not disabled fails with the
integrity error — for every write option set (in particular for encrypted
files, where the digest covers the ciphertext) and for every password supplied
to the reader, i.e. before any decryption or payload decode is attempted. -/
theorem readEngram_tampered_payload (now : ℚ) (salt nonce : List Nat)
    (file : EngramFile) (options : WriteOptions) (altered : List PB)
    (haltered : altered ≠ ((writeEngram now salt nonce file options).drop 13).map pbOfB)
    (pw : Option String) (vi : Option Bool) (hvi : vi ≠ some false) :
    readEngram ((writeEngram now salt nonce file options).take 13 ++ altered.map B.pb)
        { password := pw, verifyIntegrity := vi } =
      .error "Integrity check failed: file may be corrupted or tampered" := by
  obtain ⟨fp, hw, hfp⟩ := writeEngram_shape now salt nonce file options
  rw [hw] at haltered ⊢
  rw [frameOf_drop_13, map_pbOfB_map_pb] at haltered
  rw [frameOf_take_13, frameOf_append, List.nil_append, readEngram_frame,
    map_pbOfB_map_pb]
  cases henc : (options.encrypt.getD false) && isTruthyStr options.password with
  | false =>
    simp only [henc, Bool.false_eq_true, if_false]
    simp only [readEngramBody, hashPayload]
    rw [if_pos]
    exact ⟨hvi, fun h => haltered h.symm⟩
  | true =>
    simp only [henc, if_true]
    simp only [readEngramBody, hashPayload]
    rw [if_pos]
    exact ⟨hvi, fun h => haltered h.symm⟩

def sampleSecurity : SecurityConfig :=
  { encrypted := false, algorithm := "none", kdf := "none", integrity := [] }

def sampleSchema : SchemaConfig :=
  { embeddingModel := "m", embeddingDims := 3, chunkStrategy := "paragraph",
    modalities := ["text"] }

def sampleStats : FileStats :=
  { totalChunks := 1, totalTokens := 1, rootNodes := 1, maxDepth := 0,
    entityCount := 0, linkCount := 0 }

def sampleHeader : EngramHeader :=
  { version := (1, 0), created := 0, modified := 0, security := sampleSecurity,
    metadata := { source := "test" }, schema := sampleSchema, stats := sampleStats }

def sampleFile : EngramFile :=
  { header := sampleHeader, nodes := [nodeR], entities := [], links := [], deltas := none }

/-- Witness for `readEngram_tampered_payload` on a concrete container. -/
theorem readEngram_tampered_payload_witness :
    ([PB.byte 0] ≠ ((writeEngram 5 [] [] sampleFile {}).drop 13).map pbOfB) ∧
    ((none : Option Bool) ≠ some false) ∧
    readEngram ((writeEngram 5 [] [] sampleFile {}).take 13 ++ [PB.byte 0].map B.pb)
        { password := none, verifyIntegrity := none } =
      .error "Integrity check failed: file may be corrupted or tampered" :=
  ⟨by decide, by decide,
    readEngram_tampered_payload 5 [] [] sampleFile {} [PB.byte 0] (by decide) none none
      (by decide)⟩

/-! ## Claim C10: `verifyIntegrity := false` skips the digest comparison -/

/-- C10: when the reader is called with `verifyIntegrity := false`, the digest
comparison is skipped entirely: for an unencrypted container whose payload
region has been replaced by any other decodable payload, the read succeeds and
returns the altered payload's collections, with no integrity error. -/
theorem readEngram_skip_integrity (now : ℚ) (salt nonce : List Nat)
    (file : EngramFile) (enc sg : Option Bool) (pk : Option (List Nat))
    (pd : PayloadData) :
    readEngram ((writeEngram now salt nonce file
          { encrypt := enc, password := none, sign := sg, privateKey := pk }).take 13 ++
        [B.pb (PB.pblob pd)])
        { password := none, verifyIntegrity := some false } =
      .ok { header := writtenPlainHeader now file, nodes := pd.nodes,
            entities := pd.entities, links := pd.links, deltas := pd.deltas } := by
  obtain ⟨fp, hw, hfp⟩ := writeEngram_shape now salt nonce file
    { encrypt := enc, password := none, sign := sg, privateKey := pk }
  have henc : (((⟨enc, none, sg, pk⟩ : WriteOptions).encrypt.getD false) &&
      isTruthyStr (⟨enc, none, sg, pk⟩ : WriteOptions).password) = false := by
    simp [isTruthyStr]
  rw [hw]
  simp only [henc, Bool.false_eq_true, if_false] at hfp ⊢
  subst hfp
  rw [frameOf_take_13, frameOf_append, List.nil_append, readEngram_frame]
  simp [readEngramBody, pbOfB, decodePayload, plainSecurityOf, filePayload,
    writtenPlainHeader]

/-! ## Stable sort lemmas (for claim C7) -/

theorem mem_insertDesc {a r : SearchResult} {l : List SearchResult} :
    a ∈ insertDesc r l ↔ a = r ∨ a ∈ l := by
  induction l with
  | nil => simp [insertDesc]
  | cons x xs ih =>
    by_cases h : r.score ≤ x.score
    · simp only [insertDesc, if_pos h, List.mem_cons, ih]
      tauto
    · simp only [insertDesc, if_neg h, List.mem_cons]

theorem pairwise_insertDesc {r : SearchResult} {l : List SearchResult}
    (hl : l.Pairwise (fun a b => b.score ≤ a.score)) :
    (insertDesc r l).Pairwise (fun a b => b.score ≤ a.score) := by
  induction l with
  | nil => simp [insertDesc]
  | cons x xs ih =>
    rw [List.pairwise_cons] at hl
    by_cases h : r.score ≤ x.score
    · rw [insertDesc, if_pos h, List.pairwise_cons]
      refine ⟨?_, ih hl.2⟩
      intro a ha
      rcases mem_insertDesc.mp ha with rfl | ha
      · exact h
      · exact hl.1 a ha
    · rw [insertDesc, if_neg h, List.pairwise_cons]
      push_neg at h
      refine ⟨?_, List.pairwise_cons.mpr hl⟩
      intro a ha
      rcases List.mem_cons.mp ha with rfl | ha
      · exact le_of_lt h
      · exact le_trans (hl.1 a ha) (le_of_lt h)

theorem filter_insertDesc (r : SearchResult) (l : List SearchResult) (s : ℚ)
    (hl : l.Pairwise (fun a b => b.score ≤ a.score)) :
    (insertDesc r l).filter (fun x => decide (x.score = s)) =
      if r.score = s then
        l.filter (fun x => decide (x.score = s)) ++ [r]
      else l.filter (fun x => decide (x.score = s)) := by
  induction l with
  | nil =>
    by_cases h : r.score = s <;> simp [insertDesc, h]
  | cons x xs ih =>
    rw [List.pairwise_cons] at hl
    by_cases h : r.score ≤ x.score
    · rw [insertDesc, if_pos h]
      by_cases hx : x.score = s <;> by_cases hr : r.score = s <;>
        simp [List.filter_cons, hx, hr, ih hl.2]
    · rw [insertDesc, if_neg h]
      push_neg at h
      by_cases hr : r.score = s
      · have hxs : ¬ x.score = s := by
          intro he
          rw [he, ← hr] at h
          exact lt_irrefl _ h
        have htail : xs.filter (fun x => decide (x.score = s)) = [] := by
          rw [List.filter_eq_nil_iff]
          intro a ha
          have hax := hl.1 a ha
          simp only [decide_eq_true_eq]
          intro he
          rw [he, ← hr] at hax
          have := lt_of_le_of_lt hax h
          rw [hr] at this
          exact lt_irrefl _ this
        simp [List.filter_cons, hr, hxs, htail]
      · simp [List.filter_cons, hr]

theorem stableSortDesc_aux (l : List SearchResult) :
    ∀ acc : List SearchResult, acc.Pairwise (fun a b => b.score ≤ a.score) →
    (List.foldl (fun acc r => insertDesc r acc) acc l).Pairwise
        (fun a b => b.score ≤ a.score) ∧
      (∀ s, (List.foldl (fun acc r => insertDesc r acc) acc l).filter
          (fun x => decide (x.score = s)) =
        acc.filter (fun x => decide (x.score = s)) ++
          l.filter (fun x => decide (x.score = s))) ∧
      (∀ a, a ∈ List.foldl (fun acc r => insertDesc r acc) acc l →
        a ∈ acc ∨ a ∈ l) := by
  induction l with
  | nil => intro acc hacc; exact ⟨hacc, fun s => by simp, fun a ha => Or.inl ha⟩
  | cons r rest ih =>
    intro acc hacc
    obtain ⟨h1, h2, h3⟩ := ih (insertDesc r acc) (pairwise_insertDesc hacc)
    simp only [List.foldl_cons]
    refine ⟨h1, ?_, ?_⟩
    · intro s
      rw [h2 s, filter_insertDesc r acc s hacc, List.filter_cons]
      by_cases hr : r.score = s <;> simp [hr]
    · intro a ha
      rcases h3 a ha with ha | ha
      · rcases mem_insertDesc.mp ha with rfl | ha
        · exact Or.inr (List.mem_cons_self _ _)
        · exact Or.inl ha
      · exact Or.inr (List.mem_cons_of_mem _ ha)

theorem stableSortDesc_pairwise (l : List SearchResult) :
    (stableSortDesc l).Pairwise (fun a b => b.score ≤ a.score) :=
  (stableSortDesc_aux l [] (by simp)).1

theorem stableSortDesc_filter (l : List SearchResult) (s : ℚ) :
    (stableSortDesc l).filter (fun x => decide (x.score = s)) =
      l.filter (fun x => decide (x.score = s)) := by
  have := (stableSortDesc_aux l [] (by simp)).2.1 s
  simpa [stableSortDesc] using this

theorem stableSortDesc_subset {a : SearchResult} {l : List SearchResult}
    (h : a ∈ stableSortDesc l) : a ∈ l := by
  rcases (stableSortDesc_aux l [] (by simp)).2.2 a h with h' | h'
  · simp at h'
  · exact h'

theorem take_filter_of_filter (l : List α) (k : Nat) (p : α → Bool) :
    ∃ k', (l.take k).filter p = (l.filter p).take k' := by
  induction l generalizing k with
  | nil => exact ⟨0, by simp⟩
  | cons x xs ih =>
    cases k with
    | zero => exact ⟨0, by simp⟩
    | succ k =>
      obtain ⟨k', hk'⟩ := ih k
      by_cases hx : p x
      · exact ⟨k' + 1, by simp [List.filter_cons, hx, hk']⟩
      · exact ⟨k', by simp [List.filter_cons, hx, hk']⟩

/-! ## Candidate-loop soundness (for claim C7) -/

theorem bruteCandidates_sound (now : ℚ) (mexp : ℚ → ℚ) (minScore timeDecay : ℚ)
    (includeArchived : Bool) (filters : Option SearchFilters) (qe : List ℚ) :
    ∀ (nodes : List MemoryNode) (res : List SearchResult),
    bruteCandidates now mexp minScore timeDecay includeArchived filters qe nodes =
      .ok res →
    ∀ r ∈ res, minScore ≤ r.score ∧
      ∃ emb raw, r.node.embedding = some emb ∧ cosineSimilarity qe emb = some raw ∧
        r.score = finalScore now mexp timeDecay raw r.node := by
  intro nodes
  induction nodes with
  | nil =>
    intro res h
    simp only [bruteCandidates, Except.ok.injEq] at h
    subst h
    simp
  | cons node rest ih =>
    intro res h
    rw [bruteCandidates] at h
    cases hemb : node.embedding with
    | none =>
      rw [hemb] at h
      exact ih res h
    | some emb =>
      rw [hemb] at h
      by_cases hf : passesFilters node filters
      · simp only [hf, Bool.not_true, Bool.false_eq_true, if_false] at h
        by_cases harch : (!includeArchived && node.temporal.decayTier == .archive) = true
        · rw [if_pos harch] at h
          exact ih res h
        · rw [if_neg harch] at h
          cases hcos : cosineSimilarity qe emb with
          | none => rw [hcos] at h; cases h
          | some raw =>
            rw [hcos] at h
            cases htail : bruteCandidates now mexp minScore timeDecay includeArchived
                filters qe rest with
            | error e => rw [htail] at h; cases h
            | ok tail =>
              rw [htail] at h
              simp only [Except.ok.injEq] at h
              subst h
              intro r hr
              by_cases hsc : minScore ≤ finalScore now mexp timeDecay raw node
              · rw [if_pos hsc] at hr
                rcases List.mem_cons.mp hr with rfl | hr
                · exact ⟨hsc, emb, raw, hemb, hcos, rfl⟩
                · exact ih tail htail r hr
              · rw [if_neg hsc] at hr
                exact ih tail htail r hr
      · simp only [hf, Bool.not_false, if_true] at h
        exact ih res h

theorem hnswCandidates_sound (now : ℚ) (mexp : ℚ → ℚ) (minScore timeDecay : ℚ)
    (includeArchived : Bool) (filters : Option SearchFilters) (tree : MemoryTree) :
    ∀ (cands : List (String × ℚ)),
    ∀ r ∈ hnswCandidates now mexp minScore timeDecay includeArchived filters tree cands,
      minScore ≤ r.score ∧
      ∃ cand, cand ∈ cands ∧ mapGet tree.nodes cand.1 = some r.node ∧
        r.score = finalScore now mexp timeDecay (1 - cand.2) r.node := by
  intro cands
  induction cands with
  | nil => intro r hr; simp [hnswCandidates] at hr
  | cons cand rest ih =>
    intro r hr
    rw [hnswCandidates] at hr
    cases hget : mapGet tree.nodes cand.1 with
    | none =>
      simp only [hget] at hr
      obtain ⟨h1, c, hc⟩ := ih r hr
      exact ⟨h1, c, List.mem_cons_of_mem _ hc.1, hc.2⟩
    | some node =>
      simp only [hget] at hr
      cases hemb : node.embedding with
      | none =>
        simp only [hemb] at hr
        obtain ⟨h1, c, hc⟩ := ih r hr
        exact ⟨h1, c, List.mem_cons_of_mem _ hc.1, hc.2⟩
      | some emb =>
        simp only [hemb] at hr
        by_cases hf : passesFilters node filters
        · simp only [hf, Bool.not_true, Bool.false_eq_true, if_false] at hr
          by_cases harch : (!includeArchived && node.temporal.decayTier == .archive) = true
          · rw [if_pos harch] at hr
            obtain ⟨h1, c, hc⟩ := ih r hr
            exact ⟨h1, c, List.mem_cons_of_mem _ hc.1, hc.2⟩
          · rw [if_neg harch] at hr
            by_cases hsc : minScore ≤ finalScore now mexp timeDecay (1 - cand.2) node
            · rw [if_pos hsc] at hr
              rcases List.mem_cons.mp hr with rfl | hr
              · exact ⟨hsc, cand, List.mem_cons_self _ _, hget, rfl⟩
              · obtain ⟨h1, c, hc⟩ := ih r hr
                exact ⟨h1, c, List.mem_cons_of_mem _ hc.1, hc.2⟩
            · rw [if_neg hsc] at hr
              obtain ⟨h1, c, hc⟩ := ih r hr
              exact ⟨h1, c, List.mem_cons_of_mem _ hc.1, hc.2⟩
        · simp only [hf, Bool.not_false, if_true] at hr
          obtain ⟨h1, c, hc⟩ := ih r hr
          exact ⟨h1, c, List.mem_cons_of_mem _ hc.1, hc.2⟩

/-! ## Claim C7: ranked search results -/

/-- C7: for both search strategies, the returned list is sorted by descending
final score, keeps only results whose final score is at least `minScore`
(default `0.5`), has length at most `topK` (default `10`), each result's final
score is the raw similarity (dot product for brute force, `1 - distance` for
the ANN candidates) put through the temporal-decay and quality-boost chain, and
the sort is stable: equal-score results appear as a prefix of the candidates'
original retrieval order. -/
theorem search_ranked_results (now : ℚ) (mexp : ℚ → ℚ) (tree : MemoryTree)
    (qe : List ℚ) (options : SearchOptions) (out : List SearchResult)
    (searchKnn : Nat → List (String × ℚ))
    (h : searchNodesBruteForce now mexp tree qe options = .ok out) :
    (out.Pairwise (fun a b => b.score ≤ a.score) ∧
     out.length ≤ options.topK.getD 10 ∧
     (∀ r ∈ out, options.minScore.getD (1 / 2) ≤ r.score ∧
       ∃ emb raw, r.node.embedding = some emb ∧ cosineSimilarity qe emb = some raw ∧
         r.score = finalScore now mexp (options.timeDecay.getD 0) raw r.node) ∧
     (∃ cands, bruteCandidates now mexp (options.minScore.getD (1 / 2))
         (options.timeDecay.getD 0) (options.includeArchived.getD false) options.filters
         qe tree.getAll = .ok cands ∧
       out = (stableSortDesc cands).take (options.topK.getD 10) ∧
       ∀ s, ∃ k, out.filter (fun x => decide (x.score = s)) =
         (cands.filter (fun x => decide (x.score = s))).take k)) ∧
    ((searchNodesHNSW now mexp searchKnn tree options).Pairwise
        (fun a b => b.score ≤ a.score) ∧
     (searchNodesHNSW now mexp searchKnn tree options).length ≤ options.topK.getD 10 ∧
     (∀ r ∈ searchNodesHNSW now mexp searchKnn tree options,
       options.minScore.getD (1 / 2) ≤ r.score ∧
       ∃ cand, cand ∈ searchKnn (max (options.topK.getD 10 * 3) 100) ∧
         mapGet tree.nodes cand.1 = some r.node ∧
         r.score = finalScore now mexp (options.timeDecay.getD 0) (1 - cand.2) r.node) ∧
     (∀ s, ∃ k, (searchNodesHNSW now mexp searchKnn tree options).filter
         (fun x => decide (x.score = s)) =
       ((hnswCandidates now mexp (options.minScore.getD (1 / 2))
           (options.timeDecay.getD 0) (options.includeArchived.getD false)
           options.filters tree (searchKnn (max (options.topK.getD 10 * 3) 100))).filter
         (fun x => decide (x.score = s))).take k)) := by
  constructor
  · simp only [searchNodesBruteForce] at h
    cases hc : bruteCandidates now mexp (options.minScore.getD (1 / 2))
        (options.timeDecay.getD 0) (options.includeArchived.getD false) options.filters
        qe tree.getAll with
    | error e =>
      rw [hc] at h
      exact absurd h (by simp)
    | ok cands =>
      simp only [hc, Except.ok.injEq] at h
      subst h
      refine ⟨?_, List.length_take_le _ _, ?_, cands, rfl, rfl, ?_⟩
      · exact List.Pairwise.sublist (List.take_sublist _ _) (stableSortDesc_pairwise cands)
      · intro r hr
        exact bruteCandidates_sound now mexp _ _ _ _ qe tree.getAll cands hc r
          (stableSortDesc_subset ((List.take_subset _ _) hr))
      · intro s
        obtain ⟨k, hk⟩ := take_filter_of_filter (stableSortDesc cands)
          (options.topK.getD 10) (fun x => decide (x.score = s))
        exact ⟨k, by rw [hk, stableSortDesc_filter]⟩
  · have hH : searchNodesHNSW now mexp searchKnn tree options =
        (stableSortDesc (hnswCandidates now mexp (options.minScore.getD (1 / 2))
          (options.timeDecay.getD 0) (options.includeArchived.getD false)
          options.filters tree
          (searchKnn (max (options.topK.getD 10 * 3) 100)))).take
          (options.topK.getD 10) := rfl
    rw [hH]
    refine ⟨?_, List.length_take_le _ _, ?_, ?_⟩
    · exact List.Pairwise.sublist (List.take_sublist _ _) (stableSortDesc_pairwise _)
    · intro r hr
      exact hnswCandidates_sound now mexp _ _ _ _ tree _ r
        (stableSortDesc_subset ((List.take_subset _ _) hr))
    · intro s
      obtain ⟨k, hk⟩ := take_filter_of_filter
        (stableSortDesc (hnswCandidates now mexp (options.minScore.getD (1 / 2))
          (options.timeDecay.getD 0) (options.includeArchived.getD false)
          options.filters tree (searchKnn (max (options.topK.getD 10 * 3) 100))))
        (options.topK.getD 10) (fun x => decide (x.score = s))
      exact ⟨k, by rw [hk, stableSortDesc_filter]⟩

def searchNode : MemoryNode :=
  { baseNode "n" none [] 0 "/n" with
    embedding := some [1]
    quality := { score := 1, confidence := 1, source := .direct } }

def searchTree : MemoryTree := { nodes := [("n", searchNode)], rootIds := ["n"] }

/-- Witness for `search_ranked_results` on a one-node store: the single
embedded node scores `1 · (0.5 + 0.5 · 1) = 1` and is returned. -/
theorem search_ranked_results_witness :
    (searchNodesBruteForce 0 (fun _ => 1) searchTree [1] { query := "q" } =
      .ok [⟨searchNode, 1⟩]) ∧
    (([⟨searchNode, 1⟩] : List SearchResult).Pairwise (fun a b => b.score ≤ a.score) ∧
     ([⟨searchNode, 1⟩] : List SearchResult).length ≤ 10 ∧
     (∀ r ∈ ([⟨searchNode, 1⟩] : List SearchResult), (1 / 2 : ℚ) ≤ r.score ∧
       ∃ emb raw, r.node.embedding = some emb ∧ cosineSimilarity [1] emb = some raw ∧
         r.score = finalScore 0 (fun _ => 1) 0 raw r.node) ∧
     (∃ cands, bruteCandidates 0 (fun _ => 1) (1 / 2) 0 false none [1]
         searchTree.getAll = .ok cands ∧
       ([⟨searchNode, 1⟩] : List SearchResult) = (stableSortDesc cands).take 10 ∧
       ∀ s, ∃ k, ([⟨searchNode, 1⟩] : List SearchResult).filter
           (fun x => decide (x.score = s)) =
         (cands.filter (fun x => decide (x.score = s))).take k)) ∧
    ((searchNodesHNSW 0 (fun _ => 1) (fun _ => []) searchTree { query := "q" }).Pairwise
        (fun a b => b.score ≤ a.score) ∧
     (searchNodesHNSW 0 (fun _ => 1) (fun _ => []) searchTree { query := "q" }).length ≤ 10 ∧
     (∀ r ∈ searchNodesHNSW 0 (fun _ => 1) (fun _ => []) searchTree { query := "q" },
       (1 / 2 : ℚ) ≤ r.score ∧
       ∃ cand, cand ∈ (fun _ => ([] : List (String × ℚ))) (max (10 * 3) 100) ∧
         mapGet searchTree.nodes cand.1 = some r.node ∧
         r.score = finalScore 0 (fun _ => 1) 0 (1 - cand.2) r.node) ∧
     (∀ s, ∃ k, (searchNodesHNSW 0 (fun _ => 1) (fun _ => []) searchTree
           { query := "q" }).filter (fun x => decide (x.score = s)) =
       ((hnswCandidates 0 (fun _ => 1) (1 / 2) 0 false none searchTree
           ((fun _ => ([] : List (String × ℚ))) (max (10 * 3) 100))).filter
         (fun x => decide (x.score = s))).take k)) := by
  have hok : searchNodesBruteForce 0 (fun _ => 1) searchTree [1] { query := "q" } =
      .ok [⟨searchNode, 1⟩] := by
    simp [searchNodesBruteForce, bruteCandidates, MemoryTree.getAll, searchTree,
      searchNode, baseNode, cosineSimilarity, finalScore, passesFilters, stableSortDesc,
      insertDesc, sampleTemporal, sampleQuality, sampleContent]
    norm_num
  exact ⟨hok, search_ranked_results 0 (fun _ => 1) searchTree [1] { query := "q" }
    [⟨searchNode, 1⟩] (fun _ => []) hok⟩

/-! ## Reparenting-loop characterization (for claim C3) -/

theorem mem_setAdd {s : List String} {x y : String} :
    y ∈ setAdd s x ↔ y ∈ s ∨ y = x := by
  by_cases h : x ∈ s
  · simp only [setAdd, if_pos h]
    constructor
    · exact Or.inl
    · rintro (hy | rfl)
      · exact hy
      · exact h
  · simp [setAdd, if_neg h]

theorem mem_setDelete {s : List String} {x y : String} :
    y ∈ setDelete s x ↔ y ∈ s ∧ y ≠ x := by
  simp [setDelete]

theorem mapGet_mapSet_isSome (m : NodeMap) (k : String) (v : MemoryNode) (x : String) :
    (mapGet (mapSet m k v) x).isSome ↔ (x = k ∨ (mapGet m x).isSome) := by
  by_cases h : x = k
  · subst h; simp [mapGet_mapSet_self]
  · simp [mapGet_mapSet_ne _ _ h, h]

/-- Characterization of the reparenting fold when the deleted node has a
(truthy) parent `g`: each processed child's record gets `parentId := some g`,
the grandparent's child list is extended by the processed children in order,
and nothing else changes. -/
theorem reparent_foldl_g (node : MemoryNode) (g : String)
    (hpid : node.parentId = some g) (hge : g ≠ "") :
    ∀ (cs : List String) (S : MemoryTree) (gprec : MemoryNode),
    cs.Nodup → g ∉ cs →
    mapGet S.nodes g = some gprec →
    (∀ c ∈ cs, (mapGet S.nodes c).isSome) →
    (List.foldl (reparentStep node) S cs).rootIds = S.rootIds ∧
    (∀ c ∈ cs, ∃ oc, mapGet S.nodes c = some oc ∧
      mapGet (List.foldl (reparentStep node) S cs).nodes c =
        some { oc with parentId := node.parentId }) ∧
    mapGet (List.foldl (reparentStep node) S cs).nodes g =
      some { gprec with children := gprec.children ++ cs } ∧
    (∀ x, x ≠ g → x ∉ cs →
      mapGet (List.foldl (reparentStep node) S cs).nodes x = mapGet S.nodes x) := by
  have htr : isTruthyStr node.parentId = true := by simp [isTruthyStr, hpid, hge]
  intro cs
  induction cs with
  | nil =>
    intro S gprec _ _ hg _
    refine ⟨rfl, by simp, ?_, fun x _ _ => rfl⟩
    simpa using hg
  | cons c cs' ih =>
    intro S gprec hnd hgcs hg hpres
    have hcg : c ≠ g := fun he => hgcs (he ▸ List.mem_cons_self c cs')
    obtain ⟨oc, hoc⟩ := Option.isSome_iff_exists.mp (hpres c (List.mem_cons_self _ _))
    have hstep : reparentStep node S c = { S with nodes := mapSet (mapSet S.nodes c { oc with parentId := node.parentId }) g { gprec with children := gprec.children ++ [c] } } := by
      have htrg : isTruthyStr (some g) = true := by simp [isTruthyStr, hge]
      have hgm : mapGet (mapSet S.nodes c { oc with parentId := node.parentId }) g =
          some gprec := by
        rw [mapGet_mapSet_ne _ _ (Ne.symm hcg)]; exact hg
      rw [hpid] at hgm
      simp only [reparentStep, hoc, hpid, htrg, if_true, Option.getD_some, hgm]
    rw [List.foldl_cons, hstep]
    have hnd' : cs'.Nodup := hnd.of_cons
    have hccs' : c ∉ cs' := (List.nodup_cons.mp hnd).1
    have hgcs' : g ∉ cs' := fun h => hgcs (List.mem_cons_of_mem _ h)
    set S' : MemoryTree := { S with nodes := mapSet (mapSet S.nodes c { oc with parentId := node.parentId }) g { gprec with children := gprec.children ++ [c] } } with hS'
    have hgS' : mapGet S'.nodes g =
        some { gprec with children := gprec.children ++ [c] } := by
      simp [hS', mapGet_mapSet_self]
    have hcS' : ∀ x, x ≠ g → x ≠ c → mapGet S'.nodes x = mapGet S.nodes x := by
      intro x hxg hxc
      simp only [hS']
      rw [mapGet_mapSet_ne _ _ hxg, mapGet_mapSet_ne _ _ hxc]
    have hpres' : ∀ c' ∈ cs', (mapGet S'.nodes c').isSome := by
      intro c' hc'
      have h1 : c' ≠ g := fun he => hgcs' (he ▸ hc')
      have h2 : c' ≠ c := fun he => hccs' (he ▸ hc')
      rw [hcS' c' h1 h2]
      exact hpres c' (List.mem_cons_of_mem _ hc')
    obtain ⟨hroot, hkids, hgfin, hframe⟩ :=
      ih S' { gprec with children := gprec.children ++ [c] } hnd' hgcs' hgS' hpres'
    refine ⟨hroot, ?_, ?_, ?_⟩
    · intro c' hc'
      rcases List.mem_cons.mp hc' with rfl | hc'
      · refine ⟨oc, hoc, ?_⟩
        rw [hframe c' hcg hccs']
        rw [hS', mapGet_mapSet_ne _ _ hcg, mapGet_mapSet_self]
      · obtain ⟨oc', hoc', hfin⟩ := hkids c' hc'
        have h1 : c' ≠ g := fun he => hgcs' (he ▸ hc')
        have h2 : c' ≠ c := fun he => hccs' (he ▸ hc')
        rw [hcS' c' h1 h2] at hoc'
        exact ⟨oc', hoc', hfin⟩
    · rw [hgfin]
      simp
    · intro x hxg hxcs
      have hxc : x ≠ c := fun he => hxcs (he ▸ List.mem_cons_self _ _)
      have hxcs' : x ∉ cs' := fun h => hxcs (List.mem_cons_of_mem _ h)
      rw [hframe x hxg hxcs', hcS' x hxg hxc]

/-- Characterization of the reparenting fold when the deleted node was a root:
each processed child's record gets `parentId := none` and the child is added to
the root set; nothing else changes. -/
theorem reparent_foldl_root (node : MemoryNode) (hpid : node.parentId = none) :
    ∀ (cs : List String) (S : MemoryTree),
    cs.Nodup →
    (∀ c ∈ cs, (mapGet S.nodes c).isSome) →
    (∀ c ∈ cs, ∃ oc, mapGet S.nodes c = some oc ∧
      mapGet (List.foldl (reparentStep node) S cs).nodes c =
        some { oc with parentId := none }) ∧
    (∀ x, x ∉ cs →
      mapGet (List.foldl (reparentStep node) S cs).nodes x = mapGet S.nodes x) ∧
    (∀ y, y ∈ (List.foldl (reparentStep node) S cs).rootIds ↔ y ∈ S.rootIds ∨ y ∈ cs) := by
  have htr : isTruthyStr node.parentId = false := by simp [isTruthyStr, hpid]
  intro cs
  induction cs with
  | nil =>
    intro S _ _
    exact ⟨by simp, fun x _ => rfl, fun y => by simp⟩
  | cons c cs' ih =>
    intro S hnd hpres
    obtain ⟨oc, hoc⟩ := Option.isSome_iff_exists.mp (hpres c (List.mem_cons_self _ _))
    have hstep : reparentStep node S c =
        { nodes := mapSet S.nodes c { oc with parentId := node.parentId },
          rootIds := setAdd S.rootIds c } := by
      simp only [reparentStep, hoc, htr, Bool.false_eq_true, if_false]
    rw [List.foldl_cons, hstep]
    have hnd' : cs'.Nodup := hnd.of_cons
    have hccs' : c ∉ cs' := (List.nodup_cons.mp hnd).1
    set S' : MemoryTree :=
      { nodes := mapSet S.nodes c { oc with parentId := node.parentId },
        rootIds := setAdd S.rootIds c } with hS'
    have hcS' : ∀ x, x ≠ c → mapGet S'.nodes x = mapGet S.nodes x := by
      intro x hxc
      simp only [hS']
      rw [mapGet_mapSet_ne _ _ hxc]
    have hpres' : ∀ c' ∈ cs', (mapGet S'.nodes c').isSome := by
      intro c' hc'
      have h2 : c' ≠ c := fun he => hccs' (he ▸ hc')
      rw [hcS' c' h2]
      exact hpres c' (List.mem_cons_of_mem _ hc')
    obtain ⟨hkids, hframe, hroots⟩ := ih S' hnd' hpres'
    refine ⟨?_, ?_, ?_⟩
    · intro c' hc'
      rcases List.mem_cons.mp hc' with rfl | hc'
      · refine ⟨oc, hoc, ?_⟩
        rw [hframe c' hccs']
        simp [hS', mapGet_mapSet_self, hpid]
      · obtain ⟨oc', hoc', hfin⟩ := hkids c' hc'
        have h2 : c' ≠ c := fun he => hccs' (he ▸ hc')
        rw [hcS' c' h2] at hoc'
        exact ⟨oc', hoc', hfin⟩
    · intro x hxcs
      have hxc : x ≠ c := fun he => hxcs (he ▸ List.mem_cons_self _ _)
      have hxcs' : x ∉ cs' := fun h => hxcs (List.mem_cons_of_mem _ h)
      rw [hframe x hxcs', hcS' x hxc]
    · intro y
      rw [hroots y]
      simp only [hS', mem_setAdd, List.mem_cons]
      tauto

/-! ## Breadth-first descendant collection (for claim C3)

`getDescendants` is a breadth-first traversal of the `children` lists.  The
lemmas below show that on a well-formed store it collects exactly the
transitive descendants (`Desc`). -/

theorem filterMap_mapGet_ids (m : NodeMap)
    (hid : ∀ k v, mapGet m k = some v → v.id = k) (cs : List String) :
    (cs.filterMap (fun c => mapGet m c)).map MemoryNode.id =
      cs.filter (fun c => (mapGet m c).isSome) := by
  induction cs with
  | nil => rfl
  | cons c cs ih =>
    cases hc : mapGet m c with
    | none => simp [List.filterMap_cons, List.filter_cons, hc, ih]
    | some v =>
      simp [List.filterMap_cons, List.filter_cons, hc, ih, hid c v hc]

theorem descStep_foldl (m : NodeMap) (cs : List String) :
    ∀ (acc : List MemoryNode) (q : List String),
    cs.foldl (descStep m) (acc, q) =
      (acc ++ cs.filterMap (fun c => mapGet m c),
       q ++ cs.filter (fun c => (mapGet m c).isSome)) := by
  induction cs with
  | nil => intro acc q; simp
  | cons c cs ih =>
    intro acc q
    cases hc : mapGet m c with
    | none => simp [descStep, hc, ih, List.filterMap_cons, List.filter_cons]
    | some child => simp [descStep, hc, ih, List.filterMap_cons, List.filter_cons]

/-- Number of present ids not yet collected: the decreasing measure of the
breadth-first loop. -/
def freshCount (m : NodeMap) (root : String) (ids : List String) : Nat :=
  ((keysOf m).filter (fun k => decide (k ≠ root ∧ k ∉ ids))).length

theorem freshCount_append (m : NodeMap) (root : String) (accIds Cids : List String)
    (hnd : (keysOf m).Nodup) (hCnd : Cids.Nodup)
    (hCkeys : ∀ c ∈ Cids, c ∈ keysOf m)
    (hCfresh : ∀ c ∈ Cids, c ≠ root ∧ c ∉ accIds) :
    freshCount m root accIds = freshCount m root (accIds ++ Cids) + Cids.length := by
  classical
  have hndA : ((keysOf m).filter (fun k => decide (k ≠ root ∧ k ∉ accIds))).Nodup :=
    hnd.filter _
  have hndB : ((keysOf m).filter
      (fun k => decide (k ≠ root ∧ k ∉ accIds ++ Cids))).Nodup := hnd.filter _
  have hBeq : ((keysOf m).filter
        (fun k => decide (k ≠ root ∧ k ∉ accIds ++ Cids))).toFinset =
      ((keysOf m).filter (fun k => decide (k ≠ root ∧ k ∉ accIds))).toFinset \
        Cids.toFinset := by
    ext x
    simp only [List.mem_toFinset, List.mem_filter, decide_eq_true_eq, Finset.mem_sdiff,
      List.mem_append]
    constructor
    · rintro ⟨hk, hr, hmem⟩
      push_neg at hmem
      exact ⟨⟨hk, hr, hmem.1⟩, hmem.2⟩
    · rintro ⟨⟨hk, hr, hmem⟩, hc⟩
      refine ⟨hk, hr, ?_⟩
      push_neg
      exact ⟨hmem, hc⟩
  have hsub : Cids.toFinset ⊆
      ((keysOf m).filter (fun k => decide (k ≠ root ∧ k ∉ accIds))).toFinset := by
    intro x hx
    rw [List.mem_toFinset] at hx
    rw [List.mem_toFinset, List.mem_filter]
    exact ⟨hCkeys x hx, by simpa using hCfresh x hx⟩
  have hA := List.toFinset_card_of_nodup hndA
  have hB := List.toFinset_card_of_nodup hndB
  have hC := List.toFinset_card_of_nodup hCnd
  have hcard := Finset.card_sdiff hsub
  rw [hBeq] at hB
  have hle := Finset.card_le_card hsub
  unfold freshCount
  omega

/-- The loop invariant of `getDescendantsAux`: queue entries are present and
already collected (or the root), everything collected so far is a descendant
with its parent fully processed, and processed nodes are child-closed into the
accumulator. -/
structure BFSInv (m : NodeMap) (root : String) (q : List String)
    (acc : List MemoryNode) : Prop where
  qpres : ∀ x ∈ q, (mapGet m x).isSome
  accpres : ∀ nd ∈ acc, mapGet m nd.id = some nd
  qnd : q.Nodup
  qsub : ∀ x ∈ q, x = root ∨ x ∈ acc.map MemoryNode.id
  closed : ∀ a, (a = root ∨ a ∈ acc.map MemoryNode.id) → a ∉ q →
    ∀ c, ChildStep m a c → c ∈ acc.map MemoryNode.id
  reach : ∀ x ∈ q, x = root ∨ Desc m root x
  parentdone : ∀ nd ∈ acc, ∀ p, nd.parentId = some p →
    p ∉ q ∧ (p = root ∨ p ∈ acc.map MemoryNode.id)

theorem getDescendantsAux_master (m : NodeMap) (root : String)
    (hnd : (keysOf m).Nodup)
    (hid : ∀ k v, mapGet m k = some v → v.id = k)
    (hchn : ∀ k v, mapGet m k = some v → v.children.Nodup)
    (hCP : ∀ a nd c cn, mapGet m a = some nd → c ∈ nd.children →
      mapGet m c = some cn → cn.parentId = some a)
    (hacy : ∀ a, ¬ Desc m a a) :
    ∀ (fuel : Nat) (q : List String) (acc : List MemoryNode),
    BFSInv m root q acc →
    q.length + freshCount m root (acc.map MemoryNode.id) ≤ fuel →
    (∀ nd ∈ getDescendantsAux m fuel q acc, mapGet m nd.id = some nd) ∧
    (∀ nd ∈ getDescendantsAux m fuel q acc, nd ∈ acc ∨ Desc m root nd.id) ∧
    (∀ nd ∈ acc, nd ∈ getDescendantsAux m fuel q acc) ∧
    (∀ a, (a = root ∨ a ∈ (getDescendantsAux m fuel q acc).map MemoryNode.id) →
      ∀ c, ChildStep m a c → c ∈ (getDescendantsAux m fuel q acc).map MemoryNode.id) := by
  intro fuel
  induction fuel with
  | zero =>
    intro q acc hinv hb
    have hq : q = [] := by
      cases q with
      | nil => rfl
      | cons x xs => simp at hb
    subst hq
    simp only [getDescendantsAux]
    exact ⟨hinv.accpres, fun nd hn => Or.inl hn, fun nd hn => hn,
      fun a ha c hc => hinv.closed a ha (by simp) c hc⟩
  | succ fuel ih =>
    intro q acc hinv hb
    cases q with
    | nil =>
      simp only [getDescendantsAux]
      exact ⟨hinv.accpres, fun nd hn => Or.inl hn, fun nd hn => hn,
        fun a ha c hc => hinv.closed a ha (by simp) c hc⟩
    | cons cur rest =>
      obtain ⟨node, hnode⟩ :=
        Option.isSome_iff_exists.mp (hinv.qpres cur (List.mem_cons_self _ _))
      have hunfold : getDescendantsAux m (fuel + 1) (cur :: rest) acc =
          getDescendantsAux m fuel
            (rest ++ node.children.filter (fun c => (mapGet m c).isSome))
            (acc ++ node.children.filterMap (fun c => mapGet m c)) := by
        simp only [getDescendantsAux, hnode, descStep_foldl]
      rw [hunfold]
      set Cids := node.children.filter (fun c => (mapGet m c).isSome) with hCids
      set Cnodes := node.children.filterMap (fun c => mapGet m c) with hCnodes
      have hCmapid : Cnodes.map MemoryNode.id = Cids := filterMap_mapGet_ids m hid _
      have hCnd : Cids.Nodup := (hchn cur node hnode).filter _
      have hCstep : ∀ c ∈ Cids, ChildStep m cur c := by
        intro c hc
        rw [hCids, List.mem_filter] at hc
        exact ⟨node, hnode, hc.1, hc.2⟩
      have hcurreach : cur = root ∨ Desc m root cur :=
        hinv.reach cur (List.mem_cons_self _ _)
      have hCdesc : ∀ c ∈ Cids, Desc m root c := by
        intro c hc
        rcases hcurreach with rfl | hd
        · exact Desc.single (hCstep c hc)
        · exact Desc.tail hd (hCstep c hc)
      have hCfresh : ∀ c ∈ Cids, c ≠ root ∧ c ∉ acc.map MemoryNode.id ∧
          c ∉ rest ∧ c ≠ cur := by
        intro c hc
        have hcroot : c ≠ root := by
          intro he
          exact hacy root (he ▸ hCdesc c hc)
        have hcacc : c ∉ acc.map MemoryNode.id := by
          intro hmem
          obtain ⟨nd, hnd', rfl⟩ := List.mem_map.mp hmem
          obtain ⟨nd0, hnd0, hcch, hcpres⟩ := hCstep nd.id hc
          rw [hnode] at hnd0
          have hn0eq : node = nd0 := by simpa using hnd0
          rw [← hn0eq] at hcch
          obtain ⟨cn, hcn⟩ := Option.isSome_iff_exists.mp hcpres
          have h1 := hinv.accpres nd hnd'
          rw [hcn] at h1
          have hcneq : cn = nd := by simpa using h1
          have hpar := hCP cur node nd.id nd hnode hcch (hcneq ▸ hcn)
          exact (hinv.parentdone nd hnd' cur hpar).1 (List.mem_cons_self _ _)
        have hccur : c ≠ cur := by
          intro he
          subst he
          exact hacy c (Desc.single (hCstep c hc))
        have hcrest : c ∉ rest := by
          intro hmem
          rcases hinv.qsub c (List.mem_cons_of_mem _ hmem) with rfl | h
          · exact hcroot rfl
          · exact hcacc h
        exact ⟨hcroot, hcacc, hcrest, hccur⟩
      have hcurnotrest : cur ∉ rest := (List.nodup_cons.mp hinv.qnd).1
      have hcurCids : cur ∉ Cids := fun h => (hCfresh cur h).2.2.2 rfl
      have hcursub : cur = root ∨ cur ∈ acc.map MemoryNode.id :=
        hinv.qsub cur (List.mem_cons_self _ _)
      have hidsnew : (acc ++ Cnodes).map MemoryNode.id =
          acc.map MemoryNode.id ++ Cids := by
        rw [List.map_append, hCmapid]
      have hinv' : BFSInv m root (rest ++ Cids) (acc ++ Cnodes) := by
        refine ⟨?_, ?_, ?_, ?_, ?_, ?_, ?_⟩
        · intro x hx
          rcases List.mem_append.mp hx with hx | hx
          · exact hinv.qpres x (List.mem_cons_of_mem _ hx)
          · rw [hCids, List.mem_filter] at hx
            exact hx.2
        · intro nd hn
          rcases List.mem_append.mp hn with hn | hn
          · exact hinv.accpres nd hn
          · obtain ⟨c, hc1, hc2⟩ := List.mem_filterMap.mp hn
            rw [hid c nd hc2]
            exact hc2
        · rw [List.nodup_append]
          exact ⟨hinv.qnd.of_cons, hCnd,
            fun x hx hx' => (hCfresh x hx').2.2.1 hx⟩
        · intro x hx
          rw [hidsnew]
          rcases List.mem_append.mp hx with hx | hx
          · rcases hinv.qsub x (List.mem_cons_of_mem _ hx) with h | h
            · exact Or.inl h
            · exact Or.inr (List.mem_append.mpr (Or.inl h))
          · exact Or.inr (List.mem_append.mpr (Or.inr hx))
        · intro a ha hanot c hc
          rw [hidsnew] at ha ⊢
          rw [List.mem_append] at hanot
          push_neg at hanot
          by_cases hacur : a = cur
          · subst hacur
            obtain ⟨nd', hnd', hcch, hcpres⟩ := hc
            rw [hnode] at hnd'
            obtain rfl : nd' = node := by simpa using hnd'.symm
            refine List.mem_append.mpr (Or.inr ?_)
            rw [hCids, List.mem_filter]
            exact ⟨hcch, hcpres⟩
          · have hamem : a = root ∨ a ∈ acc.map MemoryNode.id := by
              rcases ha with h | h
              · exact Or.inl h
              · rcases List.mem_append.mp h with h | h
                · exact Or.inr h
                · exact absurd h hanot.2
            have hanotq : a ∉ cur :: rest := by
              intro h
              rcases List.mem_cons.mp h with h | h
              · exact hacur h
              · exact hanot.1 h
            exact List.mem_append.mpr
              (Or.inl (hinv.closed a hamem hanotq c hc))
        · intro x hx
          rcases List.mem_append.mp hx with hx | hx
          · exact hinv.reach x (List.mem_cons_of_mem _ hx)
          · exact Or.inr (hCdesc x hx)
        · intro nd hn p hpar
          rcases List.mem_append.mp hn with hn | hn
          · obtain ⟨h1, h2⟩ := hinv.parentdone nd hn p hpar
            constructor
            · rw [List.mem_append]
              push_neg
              refine ⟨fun h => h1 (List.mem_cons_of_mem _ h), ?_⟩
              intro hpC
              rcases h2 with rfl | h2
              · exact (hCfresh p hpC).1 rfl
              · exact (hCfresh p hpC).2.1 h2
            · rw [hidsnew]
              rcases h2 with h2 | h2
              · exact Or.inl h2
              · exact Or.inr (List.mem_append.mpr (Or.inl h2))
          · obtain ⟨c, hc1, hc2⟩ := List.mem_filterMap.mp hn
            have hcid : nd.id = c := hid c nd hc2
            have hcC : c ∈ Cids := by
              rw [hCids, List.mem_filter]
              exact ⟨hc1, by rw [hc2]; rfl⟩
            have hpcur : p = cur := by
              have := hCP cur node c nd hnode hc1 hc2
              rw [hpar] at this
              simpa using this
            subst hpcur
            constructor
            · rw [List.mem_append]
              push_neg
              exact ⟨hcurnotrest, hcurCids⟩
            · rw [hidsnew]
              rcases hcursub with h | h
              · exact Or.inl h
              · exact Or.inr (List.mem_append.mpr (Or.inl h))
      have hCkeys : ∀ c ∈ Cids, c ∈ keysOf m := by
        intro c hc
        rw [hCids, List.mem_filter] at hc
        exact mapGet_isSome_iff_mem_keys.mp hc.2
      have hcount := freshCount_append m root (acc.map MemoryNode.id) Cids hnd hCnd
        hCkeys (fun c hc => ⟨(hCfresh c hc).1, (hCfresh c hc).2.1⟩)
      have hb' : (rest ++ Cids).length +
          freshCount m root ((acc ++ Cnodes).map MemoryNode.id) ≤ fuel := by
        rw [hidsnew, List.length_append]
        have hq : (cur :: rest).length = rest.length + 1 := by simp
        omega
      obtain ⟨ih1, ih2, ih3, ih4⟩ := ih (rest ++ Cids) (acc ++ Cnodes) hinv' hb'
      refine ⟨ih1, ?_, ?_, ih4⟩
      · intro nd hn
        rcases ih2 nd hn with hn' | hn'
        · rcases List.mem_append.mp hn' with h | h
          · exact Or.inl h
          · obtain ⟨c, hc1, hc2⟩ := List.mem_filterMap.mp h
            have hcC : c ∈ Cids := by
              rw [hCids, List.mem_filter]
              exact ⟨hc1, by rw [hc2]; rfl⟩
            rw [hid c nd hc2]
            exact Or.inr (hCdesc c hcC)
        · exact Or.inr hn'
      · intro nd hn
        exact ih3 nd (List.mem_append.mpr (Or.inl hn))

/-- On a well-formed store satisfying the hierarchy invariant,
`getDescendants` collects exactly the transitive descendants of the root:
every collected node is the store's record for its id, and an id appears in
the result iff it is a `Desc`-descendant of the root. -/
theorem getDescendants_spec {t : MemoryTree} (hWF : WF t) (hInv : Inv t)
    (root : String) (hroot : (mapGet t.nodes root).isSome) :
    (∀ nd ∈ Engram.getDescendants t.nodes root, mapGet t.nodes nd.id = some nd) ∧
    (∀ x, x ∈ (Engram.getDescendants t.nodes root).map MemoryNode.id ↔
      Desc t.nodes root x) := by
  have hCP : ∀ a nd c cn, mapGet t.nodes a = some nd → c ∈ nd.children →
      mapGet t.nodes c = some cn → cn.parentId = some a := by
    intro a nd c cn ha hc hcn
    obtain ⟨cn', hcn', hp⟩ := wf_childParent hWF ha hc
    rw [hcn] at hcn'
    obtain rfl : cn = cn' := by simpa using hcn'
    exact hp
  have hinv0 : BFSInv t.nodes root [root] [] := by
    refine ⟨?_, ?_, ?_, ?_, ?_, ?_, ?_⟩
    · intro x hx
      rw [List.mem_singleton] at hx
      subst hx
      exact hroot
    · intro nd hn
      simp at hn
    · simp
    · intro x hx
      rw [List.mem_singleton] at hx
      exact Or.inl hx
    · intro a ha hnot c hc
      rcases ha with rfl | h
      · exact absurd (List.mem_singleton.mpr rfl) hnot
      · simp at h
    · intro x hx
      rw [List.mem_singleton] at hx
      exact Or.inl hx
    · intro nd hn
      simp at hn
  have hfuel : ([root] : List String).length +
      freshCount t.nodes root (([] : List MemoryNode).map MemoryNode.id) ≤
      t.nodes.length + 1 := by
    have h1 : freshCount t.nodes root [] ≤ (keysOf t.nodes).length :=
      List.length_filter_le _ _
    have h2 : (keysOf t.nodes).length = t.nodes.length := by
      simp [keysOf]
    simp only [List.map_nil, List.length_singleton]
    omega
  obtain ⟨h1, h2, _, h4⟩ := getDescendantsAux_master t.nodes root hWF.1
    (fun k v h => wf_get_id hWF h)
    (fun k v h => wf_children_nodup hWF h)
    hCP
    (fun a ha => desc_irrefl hWF hInv ha)
    (t.nodes.length + 1) [root] [] hinv0 hfuel
  refine ⟨h1, ?_⟩
  intro x
  constructor
  · intro hx
    obtain ⟨nd, hnd, rfl⟩ := List.mem_map.mp hx
    rcases h2 nd hnd with h | h
    · simp at h
    · exact h
  · intro hd
    induction hd with
    | single hstep => exact h4 _ (Or.inl rfl) _ hstep
    | tail _ hstep ih => exact h4 _ (Or.inr ih) _ hstep

/-- Lookup after a left fold of `mapDelete` over a list of nodes: an id is
gone iff it is one of the deleted ids. -/
theorem foldl_mapDelete_get (ds : List MemoryNode) :
    ∀ (m : NodeMap) (x : String),
    mapGet (ds.foldl (fun mm d => mapDelete mm d.id) m) x =
      if x ∈ ds.map MemoryNode.id then none else mapGet m x := by
  induction ds with
  | nil =>
    intro m x
    simp
  | cons d ds ih =>
    intro m x
    rw [List.foldl_cons, ih (mapDelete m d.id) x]
    by_cases hx : x = d.id
    · subst hx
      rw [mapGet_mapDelete_self]
      simp
    · rw [mapGet_mapDelete_ne _ hx]
      simp only [List.map_cons, List.mem_cons]
      by_cases hmem : x ∈ ds.map MemoryNode.id
      · simp [hmem]
      · simp [hmem, hx]

/-- C3: on a well-formed store satisfying the hierarchy invariant,
`delete(n, cascade := false)` removes exactly the node `n`: every other id's
presence is unchanged, each former direct child is re-pointed at `n`'s former
parent and appended to that grandparent's child list (or promoted to the root
set when `n` was a root), and no surviving record's parent link refers to the
deleted node; `delete(n, cascade := true)` removes exactly `n` together with
its transitive descendants. -/
theorem delete_removes_and_reparents (t : MemoryTree) (n : String) (node : MemoryNode)
    (hWF : WF t) (hInv : Inv t) (hnode : mapGet t.nodes n = some node) :
    mapGet (MemoryTree.delete t n false).1.nodes n = none ∧
    (∀ x, x ≠ n →
      ((mapGet (MemoryTree.delete t n false).1.nodes x).isSome ↔
        (mapGet t.nodes x).isSome)) ∧
    (∀ c ∈ node.children, ∃ oc, mapGet t.nodes c = some oc ∧
      mapGet (MemoryTree.delete t n false).1.nodes c =
        some { oc with parentId := node.parentId }) ∧
    (∀ g, node.parentId = some g →
      ∃ gn, mapGet (MemoryTree.delete t n false).1.nodes g = some gn ∧
        ∀ c ∈ node.children, c ∈ gn.children) ∧
    (node.parentId = none →
      ∀ c ∈ node.children, c ∈ (MemoryTree.delete t n false).1.rootIds) ∧
    (∀ x xn, mapGet (MemoryTree.delete t n false).1.nodes x = some xn →
      xn.parentId ≠ some n) ∧
    (∀ x, mapGet (MemoryTree.delete t n true).1.nodes x = none ↔
      (mapGet t.nodes x = none ∨ x = n ∨ Desc t.nodes n x)) := by
  have hacy : ∀ a, ¬ Desc t.nodes a a := fun a ha => desc_irrefl hWF hInv ha
  have hchnd : node.children.Nodup := wf_children_nodup hWF hnode
  have hcpres : ∀ c ∈ node.children, (mapGet t.nodes c).isSome := by
    intro c hc
    obtain ⟨cn, hcn, _⟩ := wf_childParent hWF hnode hc
    rw [hcn]
    rfl
  have hchstep : ∀ c ∈ node.children, ChildStep t.nodes n c :=
    fun c hc => ⟨node, hnode, hc, hcpres c hc⟩
  have hchne : ∀ c ∈ node.children, c ≠ n := by
    intro c hc he
    subst he
    exact hacy c (Desc.single (hchstep c hc))
  have hnsome : (mapGet t.nodes n).isSome := by
    rw [hnode]
    rfl
  have hdsids : ∀ x, x ∈ (Engram.getDescendants t.nodes n).map MemoryNode.id ↔
      Desc t.nodes n x := (getDescendants_spec hWF hInv n hnsome).2
  have hm1 : ∀ x, mapGet ((Engram.getDescendants t.nodes n).foldl
      (fun mm d => mapDelete mm d.id) t.nodes) x =
      if x ∈ (Engram.getDescendants t.nodes n).map MemoryNode.id then none
      else mapGet t.nodes x := fun x => foldl_mapDelete_get _ _ _
  cases hpc : node.parentId with
  | some g =>
    obtain ⟨hgne, gn, hgn, hningn⟩ := wf_parentChild hWF hnode hpc
    have hgnn : g ≠ n := by
      have h := parent_ne_self hWF hInv hnode
      rw [hpc] at h
      intro he
      exact h (by rw [he])
    have hgnotch : g ∉ node.children := by
      intro hg
      exact hacy n (Desc.tail (Desc.single (hchstep g hg)) ⟨gn, hgn, hningn, hnsome⟩)
    have htrg : isTruthyStr node.parentId = true := by
      simp [isTruthyStr, hpc, hgne]
    have htrg2 : isTruthyStr (some g) = true := by
      simp [isTruthyStr, hgne]
    obtain ⟨hroot1, hkids1, hgfin1, hframe1⟩ :=
      reparent_foldl_g node g hpc hgne node.children t gn hchnd hgnotch hgn hcpres
    have hD0 : MemoryTree.delete t n false =
        ({ nodes := mapDelete
              (mapSet (node.children.foldl (reparentStep node) t).nodes g
                { gn with children := (gn.children ++ node.children).filter (· ≠ n) }) n,
           rootIds := t.rootIds }, none) := by
      simp only [MemoryTree.delete, hnode, Bool.false_eq_true, if_false, htrg, htrg2,
        if_true, hpc, Option.getD_some, hgfin1, hroot1]
    refine ⟨?_, ?_, ?_, ?_, ?_, ?_, ?_⟩
    · simp only [hD0]
      exact mapGet_mapDelete_self _ n
    · intro x hxn
      simp only [hD0]
      rw [mapGet_mapDelete_ne _ hxn]
      by_cases hxg : x = g
      · subst hxg
        rw [mapGet_mapSet_self, hgn]
        simp
      · rw [mapGet_mapSet_ne _ _ hxg]
        by_cases hxc : x ∈ node.children
        · obtain ⟨oc, hoc, hfin⟩ := hkids1 x hxc
          rw [hfin, hoc]
          simp
        · rw [hframe1 x hxg hxc]
    · intro c hc
      obtain ⟨oc, hoc, hfin⟩ := hkids1 c hc
      refine ⟨oc, hoc, ?_⟩
      simp only [hD0]
      have hcg : c ≠ g := fun he => hgnotch (he ▸ hc)
      rw [mapGet_mapDelete_ne _ (hchne c hc), mapGet_mapSet_ne _ _ hcg, hfin, hpc]
    · intro g' hg'
      obtain rfl : g' = g := by
        injection hg' with h
        exact h.symm
      refine ⟨{ gn with children := (gn.children ++ node.children).filter (· ≠ n) }, ?_, ?_⟩
      · simp only [hD0]
        rw [mapGet_mapDelete_ne _ hgnn, mapGet_mapSet_self]
      · intro c hc
        simp only [List.mem_filter, List.mem_append]
        exact ⟨Or.inr hc, by simp [hchne c hc]⟩
    · intro h
      exact absurd h (Option.some_ne_none g)
    · intro x xn hx
      simp only [hD0] at hx
      by_cases hxn : x = n
      · subst hxn
        rw [mapGet_mapDelete_self] at hx
        cases hx
      · rw [mapGet_mapDelete_ne _ hxn] at hx
        by_cases hxg : x = g
        · subst hxg
          rw [mapGet_mapSet_self] at hx
          obtain rfl : xn =
              { gn with children := (gn.children ++ node.children).filter (· ≠ n) } := by
            simpa using hx.symm
          intro hp
          have hp' : gn.parentId = some n := hp
          obtain ⟨_, pn, hpn, hgpn⟩ := wf_parentChild hWF hgn hp'
          rw [hnode] at hpn
          obtain rfl : pn = node := by simpa using hpn.symm
          exact hgnotch hgpn
        · rw [mapGet_mapSet_ne _ _ hxg] at hx
          by_cases hxc : x ∈ node.children
          · obtain ⟨oc, hoc, hfin⟩ := hkids1 x hxc
            rw [hfin] at hx
            obtain rfl : xn = { oc with parentId := node.parentId } := by
              simpa using hx.symm
            intro hp
            have hp' : node.parentId = some n := hp
            rw [hpc] at hp'
            exact hgnn (by simpa using hp')
          · rw [hframe1 x hxg hxc] at hx
            intro hp
            obtain ⟨_, pn, hpn, hxpn⟩ := wf_parentChild hWF hx hp
            rw [hnode] at hpn
            obtain rfl : pn = node := by simpa using hpn.symm
            exact hxc hxpn
    · have hgnotds : g ∉ (Engram.getDescendants t.nodes n).map MemoryNode.id := by
        rw [hdsids g]
        intro hdg
        exact hacy n (Desc.tail hdg ⟨gn, hgn, hningn, hnsome⟩)
      have hm1g : mapGet ((Engram.getDescendants t.nodes n).foldl
          (fun mm d => mapDelete mm d.id) t.nodes) g = some gn := by
        rw [hm1 g, if_neg hgnotds, hgn]
      have hD1 : MemoryTree.delete t n true =
          ({ nodes := mapDelete
                (mapSet ((Engram.getDescendants t.nodes n).foldl
                    (fun mm d => mapDelete mm d.id) t.nodes) g
                  { gn with children := gn.children.filter (· ≠ n) }) n,
             rootIds := t.rootIds }, none) := by
        simp only [MemoryTree.delete, hnode, htrg, htrg2, if_true, hpc, Option.getD_some,
          hm1g]
      intro x
      simp only [hD1]
      by_cases hxn : x = n
      · subst hxn
        rw [mapGet_mapDelete_self]
        simp
      · rw [mapGet_mapDelete_ne _ hxn]
        by_cases hxg : x = g
        · subst hxg
          rw [mapGet_mapSet_self]
          constructor
          · intro h
            exact absurd h (Option.some_ne_none _)
          · rintro (h | h | h)
            · rw [hgn] at h
              exact absurd h (Option.some_ne_none _)
            · exact absurd h hgnn
            · exact absurd ((hdsids x).mpr h) hgnotds
        · rw [mapGet_mapSet_ne _ _ hxg, hm1 x]
          by_cases hmem : x ∈ (Engram.getDescendants t.nodes n).map MemoryNode.id
          · rw [if_pos hmem]
            constructor
            · intro _
              exact Or.inr (Or.inr ((hdsids x).mp hmem))
            · intro _
              rfl
          · rw [if_neg hmem]
            constructor
            · exact Or.inl
            · rintro (h | h | h)
              · exact h
              · exact absurd h hxn
              · exact absurd ((hdsids x).mpr h) hmem
  | none =>
    have htrn : isTruthyStr node.parentId = false := by
      simp [isTruthyStr, hpc]
    obtain ⟨hkids1, hframe1, hroots1⟩ :=
      reparent_foldl_root node hpc node.children t hchnd hcpres
    have hD0 : MemoryTree.delete t n false =
        ({ nodes := mapDelete (node.children.foldl (reparentStep node) t).nodes n,
           rootIds := setDelete (node.children.foldl (reparentStep node) t).rootIds n },
         none) := by
      simp only [MemoryTree.delete, hnode, Bool.false_eq_true, if_false, htrn]
    refine ⟨?_, ?_, ?_, ?_, ?_, ?_, ?_⟩
    · simp only [hD0]
      exact mapGet_mapDelete_self _ n
    · intro x hxn
      simp only [hD0]
      rw [mapGet_mapDelete_ne _ hxn]
      by_cases hxc : x ∈ node.children
      · obtain ⟨oc, hoc, hfin⟩ := hkids1 x hxc
        rw [hfin, hoc]
        simp
      · rw [hframe1 x hxc]
    · intro c hc
      obtain ⟨oc, hoc, hfin⟩ := hkids1 c hc
      refine ⟨oc, hoc, ?_⟩
      simp only [hD0]
      rw [mapGet_mapDelete_ne _ (hchne c hc), hfin]
    · intro g' hg'
      simp at hg'
    · intro _ c hc
      simp only [hD0]
      exact mem_setDelete.mpr ⟨(hroots1 c).mpr (Or.inr hc), hchne c hc⟩
    · intro x xn hx
      simp only [hD0] at hx
      by_cases hxn : x = n
      · subst hxn
        rw [mapGet_mapDelete_self] at hx
        cases hx
      · rw [mapGet_mapDelete_ne _ hxn] at hx
        by_cases hxc : x ∈ node.children
        · obtain ⟨oc, hoc, hfin⟩ := hkids1 x hxc
          rw [hfin] at hx
          obtain rfl : xn = { oc with parentId := none } := by
            simpa using hx.symm
          intro hp
          have hp' : (none : Option String) = some n := hp
          simp at hp'
        · rw [hframe1 x hxc] at hx
          intro hp
          obtain ⟨_, pn, hpn, hxpn⟩ := wf_parentChild hWF hx hp
          rw [hnode] at hpn
          obtain rfl : pn = node := by simpa using hpn.symm
          exact hxc hxpn
    · have hD1 : MemoryTree.delete t n true =
          ({ nodes := mapDelete ((Engram.getDescendants t.nodes n).foldl
                (fun mm d => mapDelete mm d.id) t.nodes) n,
             rootIds := setDelete t.rootIds n }, none) := by
        simp only [MemoryTree.delete, hnode, htrn, Bool.false_eq_true, if_false, if_true]
      intro x
      simp only [hD1]
      by_cases hxn : x = n
      · subst hxn
        rw [mapGet_mapDelete_self]
        simp
      · rw [mapGet_mapDelete_ne _ hxn, hm1 x]
        by_cases hmem : x ∈ (Engram.getDescendants t.nodes n).map MemoryNode.id
        · rw [if_pos hmem]
          constructor
          · intro _
            exact Or.inr (Or.inr ((hdsids x).mp hmem))
          · intro _
            rfl
        · rw [if_neg hmem]
          constructor
          · exact Or.inl
          · rintro (h | h | h)
            · exact h
            · exact absurd h hxn
            · exact absurd ((hdsids x).mpr h) hmem

/-- Witness for `delete_removes_and_reparents` at the concrete chain
`r → a → b`, deleting `a`. -/
theorem delete_removes_and_reparents_witness :
    WF chainTree ∧ Inv chainTree ∧ mapGet chainTree.nodes "a" = some nodeA ∧
    (mapGet (MemoryTree.delete chainTree "a" false).1.nodes "a" = none ∧
     (∀ x, x ≠ "a" →
       ((mapGet (MemoryTree.delete chainTree "a" false).1.nodes x).isSome ↔
         (mapGet chainTree.nodes x).isSome)) ∧
     (∀ c ∈ nodeA.children, ∃ oc, mapGet chainTree.nodes c = some oc ∧
       mapGet (MemoryTree.delete chainTree "a" false).1.nodes c =
         some { oc with parentId := nodeA.parentId }) ∧
     (∀ g, nodeA.parentId = some g →
       ∃ gn, mapGet (MemoryTree.delete chainTree "a" false).1.nodes g = some gn ∧
         ∀ c ∈ nodeA.children, c ∈ gn.children) ∧
     (nodeA.parentId = none →
       ∀ c ∈ nodeA.children, c ∈ (MemoryTree.delete chainTree "a" false).1.rootIds) ∧
     (∀ x xn, mapGet (MemoryTree.delete chainTree "a" false).1.nodes x = some xn →
       xn.parentId ≠ some "a") ∧
     (∀ x, mapGet (MemoryTree.delete chainTree "a" true).1.nodes x = none ↔
       (mapGet chainTree.nodes x = none ∨ x = "a" ∨ Desc chainTree.nodes "a" x))) :=
  ⟨by decide, inv_chainTree, by decide,
    delete_removes_and_reparents chainTree "a" nodeA (by decide) inv_chainTree (by decide)⟩

end Engram
